import Mathlib

/-!
# Verification of the explicit-free-list allocator of mm.c

This file shallowly embeds the dynamic memory allocator of the repository
(the allocator source, `src/unnamed/part_000`) and proves or refutes the
frozen claims about it.

Modelling choices, fixed once for the whole file:

* The arena is represented as the ordered list of its blocks
  (`MMState.blocks`), each block carrying its address `addr`, its total size
  `size` (header + payload + footer, as stored in the boundary tags), its
  allocated flag `alloc`, and its payload bytes `data` (`size - 16` cells,
  one per payload byte address `addr + 8 + i`).  The source stores `size`
  and `alloc` twice, in the header and in the lock-step footer
  (`set_header` / `set_footer` always rewrite both before any read); the
  model therefore stores them once.  The source's address arithmetic
  (`incr_pointer size block` reaching the next block, footer-jump
  `decr_pointer jump_dist block` reaching the previous block) corresponds,
  under the tiling of the arena by blocks, to taking the successor and the
  predecessor in this list; `prevBlk` and `mergeWithNext` below are those
  translations and are only reached by the source at addresses where the
  tiling holds.

* The free list is represented by the list `MMState.freeList` of block
  addresses in chain order from `mm_free_head`: the head of the list is
  `mm_free_head`, `get_next` is the following element, `get_prev` the
  preceding one.  `block_append` and `block_remove` translate the source's
  pointer writes into the corresponding list surgeries, branch by branch.
  The assert inside the source's `block_remove` is recorded in the flag
  `MMState.assertOk` (it stays `true` while every assert held).

* `mem_sbrk` is the arena provider, which is not part of src/ (only its
  callers are); it is modelled from the spec, see its doc comment.  The
  source's `create_space` discards the value returned by `mem_sbrk` and
  carves the new block regardless, which the model reproduces.

* `memcpy` and `memset` writes are confined to the destination block's
  payload cells in this block-level model; on the domains of the theorems
  proved over it the copy always fits there, so nothing is lost.  A write
  past the destination payload (possible only when the 64-bit size
  arithmetic in `malloc` has wrapped) lands on boundary tags and foreign
  blocks in the source — behaviour a block list cannot represent.  The
  byte-accurate embedding `MMB` at the end of the file translates the same
  source at the level of individual heap bytes and settles what happens
  there (the `realloc` wrap counterexample).

* All `size_t` arithmetic of the source that can wrap is computed
  explicitly modulo `2 ^ 64` (`pow64`).

Everything is executable: concrete runs of the allocator are evaluated by
`decide` in the scenario theorems below.
-/

namespace MM

/-- Modulus of the 64-bit `size_t` arithmetic of the source. -/
def pow64 : Nat := 2 ^ 64

/-- Rounds up the inputted size to the next multiple of `n` (`round_up` in
mm.c): `(size + n - 1) / n * n` in `size_t` arithmetic, so the sum wraps
modulo `2 ^ 64`.  The final product is at most `2 ^ 64 - n` and never
wraps. -/
def round_up (size n : Nat) : Nat := (size + n - 1) % pow64 / n * n

/-- One block of the arena: its address, the total size and allocated flag
stored in its header and (identical) footer, and its payload bytes
(cell `i` models the byte at address `addr + 8 + i`). -/
structure Block where
  addr : Nat
  size : Nat
  alloc : Bool
  data : List Nat
deriving DecidableEq

/-- The allocator state.  `lo` is `mem_heap_lo()`, `cap` the capacity of the
arena provider (how far `mem_sbrk` can extend), `brk` the currently mapped
byte count, `heapFirst`/`heapLast` the globals `mm_heap_first` and
`mm_heap_last` (address `0` stands for the null pointer), `freeList` the
chain of block addresses from `mm_free_head` (see the file comment),
`blocks` the blocks tiling the arena in address order, and `assertOk`
records that the assert inside `block_remove` has held on every call so
far. -/
@[ext]
structure MMState where
  lo : Nat
  cap : Nat
  brk : Nat
  heapFirst : Nat
  heapLast : Nat
  freeList : List Nat
  blocks : List Block
  assertOk : Bool
deriving DecidableEq

/-- Looks up the block whose header sits at address `a`. -/
def findBlk (s : MMState) (a : Nat) : Option Block :=
  s.blocks.find? fun b => b.addr == a

/-- Reads `get_size` of the block at address `a` (0 when no block starts
there; the source never reads a header off a block boundary in the states
the proofs visit). -/
def sizeAt (s : MMState) (a : Nat) : Nat :=
  match findBlk s a with
  | some b => b.size
  | none => 0

/-- Reads `is_allocated` of the block at address `a` (`true` when no block
starts there). -/
def allocAt (s : MMState) (a : Nat) : Bool :=
  match findBlk s a with
  | some b => b.alloc
  | none => true

/-- Reads the payload bytes of the block at address `a`. -/
def dataAt (s : MMState) (a : Nat) : List Nat :=
  match findBlk s a with
  | some b => b.data
  | none => []

/-- Translates `set_header(block, get_size(block), v); set_footer(block)` at
the block whose header is at `a`: the size is kept, the allocated flag is
rewritten in header and footer. -/
def setBlockAlloc (l : List Block) (a : Nat) (v : Bool) : List Block :=
  l.map fun b => if b.addr == a then { b with alloc := v } else b

/-- Modelled from the spec: the arena provider `mem_sbrk` (`arena_extend`)
is not under src/; per the spec it enlarges the arena by exactly `n` bytes
and returns the previous top of the arena, or null on failure.  Failure is
modelled as the mapped size exceeding the provider's capacity `cap`. -/
def mem_sbrk (s : MMState) (n : Nat) : Option Nat × MMState :=
  if s.brk + n ≤ s.cap then (some (s.lo + s.brk), { s with brk := s.brk + n })
  else (none, s)

/-- Translates `mm_init`: reset `mm_free_head`, pad the heap by
`2 * D_SIZE + W_SIZE = 40` bytes, then place the prologue `mm_heap_first`
at `lo + W_SIZE` and the epilogue `mm_heap_last` at
`mem_heap_hi() - (D_SIZE - 1) = lo + brk - 16`.  Returns `-1` when the pad
request fails, as the source does. -/
def mm_init (s : MMState) : Int × MMState :=
  let s0 := { s with freeList := [] }
  match mem_sbrk s0 40 with
  | (none, s1) => (-1, s1)
  | (some _, s1) => (0, { s1 with heapFirst := s1.lo + 8, heapLast := s1.lo + s1.brk - 16 })

/-- Translates `create_space`: ask `mem_sbrk` for `size` bytes (the source
discards the result, so the model also carves the block whether or not the
arena actually grew), place the new allocated block at the old
`mm_heap_last`, advance `mm_heap_last`, and return the block.  The payload
bytes of fresh memory are modelled as zero. -/
def create_space (s : MMState) (size : Nat) : Nat × MMState :=
  let s1 := (mem_sbrk s size).2
  let a := s1.heapLast
  (a, { s1 with
        blocks := s1.blocks ++ [⟨a, size, true, List.replicate (size - 16) 0⟩],
        heapLast := a + size })

/-- Translates `block_append`: insert at the head of the free list (the
source's pointer writes `set_next block head; set_prev head block;
set_prev block null; head := block` are exactly the cons on the chain). -/
def block_append (s : MMState) (a : Nat) : MMState :=
  { s with freeList := a :: s.freeList }

/-- The list effect of `block_remove`, branch by branch, together with
whether its assert held.  On `[h]` the source sees
`get_next(mm_free_head) == NULL`, asserts `block == mm_free_head`, and sets
the head to null (even when the assert failed, which the flag records).  On
a longer list the source unlinks `a` through its `next`/`prev` fields,
special-casing the head; on the chain that is dropping the head or erasing
the (unique) occurrence of `a`.  On `[]` the source dereferences a null
`mm_free_head`; the model returns the empty list with the flag down. -/
def removeList (l : List Nat) (a : Nat) : List Nat × Bool :=
  match l with
  | [] => ([], false)
  | [h] => ([], a == h)
  | h :: t => if a == h then (t, true) else (h :: t.erase a, true)

/-- Translates `block_remove` on the state, recording the assert. -/
def block_remove (s : MMState) (a : Nat) : MMState :=
  let r := removeList s.freeList a
  { s with freeList := r.1, assertOk := s.assertOk && r.2 }

/-- The two blocks produced by `split` out of a block of size `old` at `a`:
the allocated left half of size `size` keeps the first `size - 16` payload
bytes, and the free right half at `a + size` of size `old - size` covers
the old payload bytes from offset `size` on (its fresh header and footer
overlay old payload cells, which the source rewrites). -/
def splitBlocks (a size : Nat) : List Block → List Block
  | [] => []
  | b :: rest =>
    if b.addr == a then
      ⟨a, size, true, b.data.take (size - 16)⟩ ::
        ⟨a + size, b.size - size, false, b.data.drop size⟩ :: rest
    else b :: splitBlocks a size rest

/-- Translates `split`: remove the block from the free list, rewrite it as
an allocated block of size `size`, carve the free remainder just after it,
and append that remainder to the free list; returns the left half. -/
def split (s : MMState) (a size : Nat) : Nat × MMState :=
  let s1 := block_remove s a
  let s2 := { s1 with blocks := splitBlocks a size s1.blocks }
  (a, block_append s2 (a + size))

/-- Translates the loop of `find_fit` over the chain from `mm_free_head`:
the state is untouched until a candidate fits, so scanning the snapshot of
the chain is the source's traversal.  The comparison
`curr_size >= 2 * D_SIZE + size` is `size_t` arithmetic, hence the modulus
on the split threshold. -/
def find_fitAux (s : MMState) (size : Nat) : List Nat → Option (Nat × MMState)
  | [] => none
  | a :: rest =>
    let c := sizeAt s a
    if (2 * 16 + size) % pow64 ≤ c then some (split s a size)
    else if size ≤ c then
      let s1 := block_remove s a
      some (a, { s1 with blocks := setBlockAlloc s1.blocks a true })
    else find_fitAux s size rest

/-- Translates `find_fit`. -/
def find_fit (s : MMState) (size : Nat) : Option (Nat × MMState) :=
  find_fitAux s size s.freeList

/-- The adjusted block size `adj_size = D_SIZE + round_up(size, D_SIZE)` of
`malloc`, in `size_t` arithmetic. -/
def adjSize (size : Nat) : Nat := (16 + round_up size 16) % pow64

/-- Translates `malloc`: initialize if the heap prologue is still null,
return null on a zero request, otherwise serve the adjusted size from the
free list or from new arena space and return the payload pointer
`block + W_SIZE`. -/
def malloc (s : MMState) (size : Nat) : Option Nat × MMState :=
  let s := if s.heapFirst == 0 then (mm_init s).2 else s
  if size == 0 then (none, s)
  else
    match find_fit s (adjSize size) with
    | some (a, s1) => (some (a + 8), s1)
    | none =>
      let r := create_space s (adjSize size)
      (some (r.1 + 8), r.2)

/-- The block sitting immediately before the block at address `a` (read in
the source through the footer at `a - W_SIZE`, whose size field jumps back
exactly one block under the tiling of the arena). -/
def prevBlk (a : Nat) : List Block → Option Block
  | b :: c :: rest => if c.addr == a then some b else prevBlk a (c :: rest)
  | _ => none

/-- Merges the block at address `la` with its immediate successor into one
free block, as `coalesce_left` does with `set_header(left, new_size, false);
set_footer(left)`: the merged payload is the left payload, then 16 cells
overlaying the dead left footer and right header, then the right payload. -/
def mergeWithNext (la : Nat) : List Block → List Block
  | b :: c :: rest =>
    if b.addr == la then
      ⟨b.addr, b.size + c.size, false, b.data ++ List.replicate 16 0 ++ c.data⟩ :: rest
    else b :: mergeWithNext la (c :: rest)
  | l => l

/-- Translates `coalesce_left`: stop at the prologue boundary (the test
`left_footer_pt == heap_first + W_SIZE` is `a == heapFirst + 16`), read the
left neighbour through the footer, and when it is free remove both blocks
from the free list, merge them, and append the merged block; returns the
resulting block. -/
def coalesce_left (s : MMState) (a : Nat) : Nat × MMState :=
  if a == s.heapFirst + 16 then (a, s)
  else
    match prevBlk a s.blocks with
    | none => (a, s)
    | some left =>
      if left.alloc then (a, s)
      else
        let s1 := block_remove s a
        let s2 := block_remove s1 left.addr
        let s3 := { s2 with blocks := mergeWithNext left.addr s2.blocks }
        (left.addr, block_append s3 left.addr)

/-- Translates `coalesce`: merge left, then look at the right neighbour
`block + size`; unless it is the epilogue or allocated, merge it too (it
becomes the right participant of a `coalesce_left`). -/
def coalesce (s : MMState) (a : Nat) : MMState :=
  let r := coalesce_left s a
  let b := r.1
  let s1 := r.2
  let rt := b + sizeAt s1 b
  if rt != s1.heapLast && !(allocAt s1 rt) then (coalesce_left s1 rt).2 else s1

/-- Translates `free`: initialize if needed, ignore null, otherwise mark the
block at `ptr - W_SIZE` free in header and footer, append it to the free
list, and coalesce. -/
def free (s : MMState) (p : Nat) : MMState :=
  let s := if s.heapFirst == 0 then (mm_init s).2 else s
  if p == 0 then s
  else
    let a := p - 8
    let s1 := { s with blocks := setBlockAlloc s.blocks a false }
    coalesce (block_append s1 a) a

/-- Translates the `memcpy(new_ptr, old_ptr, n)` of `realloc`: copy the
first `n` payload bytes of the source block over the first `n` payload
bytes of the destination block.  This block-level translation is faithful
exactly when the copy fits inside the destination payload
(`n ≤` destination payload size), which holds on the domain of every
theorem proved about it below; a copy that overruns the destination block
writes over boundary tags and foreign blocks in the source and is treated
in the byte-accurate model `MMB` at the end of the file. -/
def memcpyBlk (s : MMState) (dst src n : Nat) : MMState :=
  let d := dataAt s (src - 8)
  { s with blocks := s.blocks.map fun b =>
      if b.addr == dst - 8 then
        { b with data := (d.take n ++ b.data.drop n).take b.data.length }
      else b }

/-- Translates `realloc`: a zero size frees; a null pointer mallocs;
otherwise malloc the new size, give up (null) if that failed, copy
`min(size, old payload size)` bytes where the old payload size is
`get_size(block) - D_SIZE`, free the old pointer, and return the new
one. -/
def realloc (s : MMState) (p size : Nat) : Option Nat × MMState :=
  if size == 0 then (none, free s p)
  else if p == 0 then malloc s size
  else
    match malloc s size with
    | (none, s1) => (none, s1)
    | (some q, s1) =>
      let old0 := sizeAt s1 (p - 8) - 16
      let n := if size < old0 then size else old0
      (some q, free (memcpyBlk s1 q p n) p)

/-- Translates the `memset(new_ptr, 0, bytes)` of `calloc`: zero the first
`bytes` payload bytes of the destination block (writes past the payload are
dropped, as in `memcpyBlk`). -/
def memset0 (s : MMState) (dst n : Nat) : MMState :=
  { s with blocks := s.blocks.map fun b =>
      if b.addr == dst - 8 then
        { b with data := List.replicate (min n b.data.length) 0 ++ b.data.drop n }
      else b }

/-- Translates `calloc`: the byte count is the `size_t` product
`nmemb * size`, which wraps modulo `2 ^ 64`; malloc it and zero the result
when malloc succeeded. -/
def calloc (s : MMState) (nmemb size : Nat) : Option Nat × MMState :=
  let bytes := nmemb * size % pow64
  match malloc s bytes with
  | (none, s1) => (none, s1)
  | (some q, s1) => (some q, memset0 s1 q bytes)

/-- The number of unallocated blocks counted by the implicit traversal of
`mm_checkheap`.  The counter in the source sits inside `if (prev != NULL)`,
so the first traversed block (the one at `heap_first + 16`) is never
counted; the traversal itself, from `heap_first + 16` by header sizes up to
`heap_last`, visits exactly the blocks of the state in order. -/
def implicitFreeCount (s : MMState) : Nat :=
  match s.blocks with
  | [] => 0
  | _ :: rest => rest.countP fun b => b.alloc == false

/-- The reconciliation counter `num_free_check` of `mm_checkheap` after both
walks: the implicit count minus one per node of the free list. -/
def freeCountGap (s : MMState) : Int :=
  (implicitFreeCount s : Int) - (s.freeList.length : Int)

/-- Whether `mm_checkheap` prints one of its two reconciliation errors
(`num_free_check` ended negative or positive). -/
def reportsReconError (s : MMState) : Bool :=
  freeCountGap s != 0

/-- Modelled from the spec: the direct O(1) doubly-linked unlink of a free
block that the spec proposes as the clean reimplementation of
`block_remove` — drop the (unique) occurrence of the block from the chain,
leaving every other node and the head order unchanged. -/
def direct_unlink (l : List Nat) (a : Nat) : List Nat := l.erase a

/-- The `get_next` walk of the free list: the address that follows `a` in
the chain from `mm_free_head`. -/
def listNext (a : Nat) : List Nat → Option Nat
  | x :: y :: rest => if x == a then some y else listNext a (y :: rest)
  | _ => none

/-- The state before any public call: nothing mapped, all globals null. -/
def initialState (lo cap : Nat) : MMState := ⟨lo, cap, 0, 0, 0, [], [], true⟩

/-- A payload pointer the caller may legally pass to `free`/`realloc`: the
payload pointer of some currently allocated block. -/
def validPtr (s : MMState) (p : Nat) : Prop :=
  ∃ b ∈ s.blocks, b.alloc = true ∧ b.addr + 8 = p

/-- The blocks tile the arena contiguously starting at address `a`. -/
def contiguousFrom : Nat → List Block → Prop
  | _, [] => True
  | a, b :: rest => b.addr = a ∧ contiguousFrom (a + b.size) rest

/-- Total byte size of a run of blocks. -/
def totalSize : List Block → Nat
  | [] => 0
  | b :: rest => b.size + totalSize rest

/-- The structural invariant of the allocator between public calls
(section 3 of the spec): prologue placement, contiguous tiling from
`heapFirst + 16` up to `heapLast`, minimum size 32 and 16-byte size
alignment, payload length bookkeeping, and the free list being a
duplicate-free enumeration of exactly the free blocks; no two adjacent
blocks are both free; every `block_remove` assert so far held. -/
structure Inv (s : MMState) : Prop where
  hf : s.heapFirst = s.lo + 8
  contig : contiguousFrom (s.heapFirst + 16) s.blocks
  last : s.heapLast = s.heapFirst + 16 + totalSize s.blocks
  sizeMin : ∀ b ∈ s.blocks, 32 ≤ b.size
  sizeAlign : ∀ b ∈ s.blocks, b.size % 16 = 0
  dataLen : ∀ b ∈ s.blocks, b.data.length = b.size - 16
  flNodup : s.freeList.Nodup
  flSub : ∀ a ∈ s.freeList, ∃ b ∈ s.blocks, b.addr = a ∧ b.alloc = false
  freeInFl : ∀ b ∈ s.blocks, b.alloc = false → b.addr ∈ s.freeList
  noAdj : s.blocks.Chain' fun b c => b.alloc = true ∨ c.alloc = true
  aok : s.assertOk = true

/-- The states reachable through legal use of the public interface: a fresh
initialization (the arena provider can serve the initial pad), then any
sequence of `malloc`, `free`, `realloc`, `calloc` where freed pointers are
payload pointers of allocated blocks (anything else is undefined behaviour
per the spec) and requested sizes stay below the `2 ^ 64` wrap-around of
the internal size round-up (beyond it the source corrupts its own heap, see
the calloc/realloc overflow theorems). -/
inductive Reachable : MMState → Prop
  | start (lo cap : Nat) (hcap : 40 ≤ cap) :
      Reachable (mm_init (initialState lo cap)).2
  | step_malloc (s : MMState) (sz : Nat) (h : Reachable s)
      (hsz : sz + 64 ≤ pow64) : Reachable (malloc s sz).2
  | step_free (s : MMState) (p : Nat) (h : Reachable s)
      (hp : p = 0 ∨ validPtr s p) : Reachable (free s p)
  | step_realloc (s : MMState) (p sz : Nat) (h : Reachable s)
      (hp : p = 0 ∨ validPtr s p) (hsz : sz + 64 ≤ pow64) :
      Reachable (realloc s p sz).2
  | step_calloc (s : MMState) (n m : Nat) (h : Reachable s)
      (hsz : n * m % pow64 + 64 ≤ pow64) : Reachable (calloc s n m).2

end MM

namespace MM

/-- Executable form of the no-adjacent-free-blocks invariant. -/
def noAdjB : List Block → Bool
  | b :: c :: rest => (b.alloc || c.alloc) && noAdjB (c :: rest)
  | _ => true

/-- The executable no-adjacent-free check coincides with the chain
predicate. -/
theorem noAdjB_iff (l : List Block) :
    noAdjB l = true ↔ l.Chain' fun b c => b.alloc = true ∨ c.alloc = true := by
  induction l with
  | nil => simp [noAdjB]
  | cons b t ih =>
    cases t with
    | nil => simp [noAdjB]
    | cons c rest =>
      rw [List.chain'_cons, ← ih]
      simp [noAdjB, Bool.or_eq_true, and_comm]

/-! ## Concrete scenario states

A concretely initialized allocator: the arena provider maps from address 16
(so the low bound is 16-byte aligned and `mm_heap_first = 24` lies 8 bytes
above a 16-byte boundary), with capacity 1000 bytes. -/

/-- The state right after a fresh, successful initialization. -/
def startState : MMState := (mm_init (initialState 16 1000)).2

/-- A fresh allocator whose arena provider can serve the 40-byte
initialization pad but nothing more: every later growth request fails. -/
def oomState : MMState := (mm_init (initialState 16 40)).2

/-- The claim-C1 evidence.  In `oomState` the free list is empty and the
arena cannot grow by the 32 bytes a 1-byte request needs (`mem_sbrk`
fails), yet `malloc 1` returns the non-null payload pointer 48, because
`create_space` discards the result of `mem_sbrk` and carves the block at
the stale `mm_heap_last` anyway; `calloc` and `realloc` consequently also
return non-null.  The claim says all three return null here. -/
theorem c1_malloc_nonnull_on_growth_failure :
    (mem_sbrk oomState 32).1 = none ∧
    oomState.freeList = [] ∧
    (malloc oomState 1).1 = some 48 ∧
    (calloc oomState 1 1).1 = some 48 ∧
    (realloc oomState 0 1).1 = some 48 := by
  refine ⟨by decide, by decide, by decide, by decide, by decide⟩

/-- The state after `p = malloc(16); free(p)` on a fresh allocator: a
single free block at address 40 (which is `heap_first + 16`, the first
traversed block), correctly enumerated by the free list. -/
def checkState : MMState := free (malloc startState 16).2 48

/-- The claim-C2 evidence.  `checkState` is reachable and satisfies the
section-3 invariants (no adjacent free blocks, sizes ≥ 32 and 16-aligned,
duplicate-free free list enumerating exactly the free blocks), and the true
number of free blocks (1) equals the free-list length (1); but the counter
of `mm_checkheap`'s implicit traversal sits inside `if (prev != NULL)` and
never counts the first block, so it counts 0, and the check prints
`free list storing more blocks than are freed` on this perfectly valid
state.  The claim says the two counts agree on reachable states and that no
reconciliation error is reported on invariant-satisfying states. -/
theorem c2_checkheap_false_reconciliation_report :
    Reachable checkState ∧
    (checkState.blocks.Chain' fun b c => b.alloc = true ∨ c.alloc = true) ∧
    (∀ b ∈ checkState.blocks, 32 ≤ b.size ∧ b.size % 16 = 0) ∧
    checkState.freeList.Nodup ∧
    (∀ a ∈ checkState.freeList, ∃ b ∈ checkState.blocks, b.addr = a ∧ b.alloc = false) ∧
    (∀ b ∈ checkState.blocks, b.alloc = false → b.addr ∈ checkState.freeList) ∧
    (checkState.blocks.countP fun b => b.alloc == false) = 1 ∧
    checkState.freeList.length = 1 ∧
    implicitFreeCount checkState = 0 ∧
    reportsReconError checkState = true := by
  refine ⟨?_, (noAdjB_iff _).mp (by decide), by decide, by decide, by decide,
    by decide, by decide, by decide, by decide, by decide⟩
  exact Reachable.step_free _ 48
    (Reachable.step_malloc _ 16 (Reachable.start 16 1000 (by decide)) (by decide))
    (Or.inr ⟨⟨40, 32, true, List.replicate 16 0⟩, by decide, by decide⟩)

/-- The state of scenario S1: `p = malloc(48); q = malloc(48); free(p);
free(q)` on a fresh allocator (`p = 48`, `q = 112` are the returned
payload pointers, witnessed in the theorem). -/
def s1State : MMState := free (free (malloc (malloc startState 48).2 48).2 48) 112

/-- The claim-C8 theorem: after `p = malloc(48); q = malloc(48); free(p);
free(q)` the free list holds exactly one block, of size 128 ≥ 128 — the
two adjacent 64-byte blocks were merged by `coalesce`. -/
theorem c8_split_and_coalesce_scenario :
    (malloc startState 48).1 = some 48 ∧
    (malloc (malloc startState 48).2 48).1 = some 112 ∧
    s1State.freeList = [40] ∧
    s1State.freeList.length = 1 ∧
    sizeAt s1State 40 = 128 ∧
    128 ≤ sizeAt s1State (s1State.freeList.headD 0) := by
  refine ⟨by decide, by decide, by decide, by decide, by decide, by decide⟩

/-- A fresh allocator after `p = malloc 16` (so `p = 48`, its block at 40
has size 32, payload size 16): the state used by the claim-C6 witness. -/
def c6P : MMState := (malloc startState 16).2

/-- The claim-C9 counterexample.  `calloc(2 ^ 64 - 1, 1)` has non-zero
wrapped product `2 ^ 64 - 1`, and allocation "succeeds" (non-null 48), but
the block malloc carved has total size 16 — the wrapped round-up again —
so its payload holds 0 bytes and the returned payload's first
`2 ^ 64 - 1` bytes cannot all be zero as the claim states: they do not
exist (in the source, `memset` runs far past the block instead). -/
theorem c9_counterexample :
    (pow64 - 1) * 1 % pow64 ≠ 0 ∧
    (calloc startState (pow64 - 1) 1).1 = some 48 ∧
    sizeAt (calloc startState (pow64 - 1) 1).2 40 = 16 ∧
    dataAt (calloc startState (pow64 - 1) 1).2 40 = [] ∧
    ¬((dataAt (calloc startState (pow64 - 1) 1).2 40).take ((pow64 - 1) * 1 % pow64) =
        List.replicate ((pow64 - 1) * 1 % pow64) 0) := by
  refine ⟨by decide, by decide, by decide, by decide, ?_⟩
  intro h
  have hd : dataAt (calloc startState (pow64 - 1) 1).2 40 = [] := by decide
  rw [hd, List.take_nil] at h
  have h0 : (pow64 - 1) * 1 % pow64 = 0 := by
    have hl := congrArg List.length h
    simpa using hl.symm
  exact absurd h0 (by decide)

end MM

namespace MM

/-! ## Free-list surgery lemmas -/

/-- On a duplicate-free chain containing `a`, every branch of
`block_remove` computes the plain erase of `a`, and the assert holds. -/
theorem removeList_eq_erase (l : List Nat) (a : Nat) (hnd : l.Nodup) (ha : a ∈ l) :
    removeList l a = (l.erase a, true) := by
  match l with
  | [] => cases ha
  | [h] =>
    have hah : a = h := by simpa using ha
    subst hah
    simp [removeList]
  | h :: x :: t =>
    by_cases hah : a = h
    · subst hah
      simp [removeList, List.erase_cons_head]
    · have hne : (a == h) = false := beq_eq_false_iff_ne.mpr hah
      have hne' : (h == a) = false := beq_eq_false_iff_ne.mpr (Ne.symm hah)
      simp [removeList, hne, List.erase_cons, hne']

/-- The head of a nonempty duplicate-free chain whose `get_next` is null is
the only member of the chain. -/
theorem listNext_none_singleton (l : List Nat) (h : Nat) (hh : l.head? = some h)
    (hn : listNext h l = none) (a : Nat) (ha : a ∈ l) : a = h := by
  match l with
  | [] => cases ha
  | [x] =>
    have : x = h := by simpa using hh
    subst this
    simpa using ha
  | x :: y :: t =>
    have hx : x = h := by simpa using hh
    subst hx
    simp [listNext] at hn

/-! ## Contiguity lemmas -/

/-- Contiguity splits across an append. -/
theorem contiguousFrom_append (a : Nat) (l1 l2 : List Block) :
    contiguousFrom a (l1 ++ l2) ↔
      contiguousFrom a l1 ∧ contiguousFrom (a + totalSize l1) l2 := by
  induction l1 generalizing a with
  | nil => simp [contiguousFrom, totalSize]
  | cons b t ih =>
    simp [contiguousFrom, totalSize, ih, Nat.add_assoc, and_assoc]

/-- Every block of a contiguous run lies inside the run's address range. -/
theorem contiguous_mem_range (a : Nat) (l : List Block) (h : contiguousFrom a l)
    (b : Block) (hb : b ∈ l) : a ≤ b.addr ∧ b.addr + b.size ≤ a + totalSize l := by
  induction l generalizing a with
  | nil => cases hb
  | cons c t ih =>
    obtain ⟨hc, hrest⟩ := h
    rcases List.mem_cons.mp hb with hb | hb
    · subst hb
      simp only [totalSize]
      omega
    · have := ih (a + c.size) hrest hb
      simp only [totalSize]
      omega

/-- In a contiguous run, the blocks before a decomposition point end at or
before it and the blocks after start at or after its end; in particular the
decomposition point's address is the prefix offset. -/
theorem contiguous_decomp (a : Nat) (l1 l2 : List Block) (b : Block)
    (h : contiguousFrom a (l1 ++ b :: l2)) :
    b.addr = a + totalSize l1 ∧
    (∀ x ∈ l1, x.addr + x.size ≤ b.addr) ∧
    (∀ x ∈ l2, b.addr + b.size ≤ x.addr) := by
  obtain ⟨h1, h2⟩ := (contiguousFrom_append a l1 (b :: l2)).mp h
  obtain ⟨hb, h3⟩ := h2
  refine ⟨hb, ?_, ?_⟩
  · intro x hx
    have hr := contiguous_mem_range a l1 h1 x hx
    omega
  · intro x hx
    have hr := contiguous_mem_range (a + totalSize l1 + b.size) l2 h3 x hx
    omega

end MM


namespace MM

/-! ## Block-list surgery lemmas

Each operation of the source rewrites the tiling of the arena locally; the
lemmas below compute those rewrites on a decomposition of the block list
around the touched address, under the freshness hypotheses that the
contiguity of reachable states provides. -/

/-- Block lookup on a decomposition: the first block with the sought
address is the decomposition point. -/
theorem find?_addr_append (l1 l2 : List Block) (b : Block) (t : Nat)
    (hb : b.addr = t) (h1 : ∀ x ∈ l1, x.addr ≠ t) :
    (l1 ++ b :: l2).find? (fun x => x.addr == t) = some b := by
  induction l1 with
  | nil => simp [List.find?, hb]
  | cons c r ih =>
    have hc : (c.addr == t) = false :=
      beq_eq_false_iff_ne.mpr (h1 c (List.mem_cons_self _ _))
    simp only [List.cons_append, List.find?, hc]
    exact ih fun x hx => h1 x (List.mem_cons_of_mem _ hx)

/-- `setBlockAlloc` leaves a list without the target address unchanged. -/
theorem setBlockAlloc_keep (l : List Block) (t : Nat) (v : Bool)
    (h : ∀ x ∈ l, x.addr ≠ t) : setBlockAlloc l t v = l := by
  induction l with
  | nil => rfl
  | cons c r ih =>
    have hc : (c.addr == t) = false :=
      beq_eq_false_iff_ne.mpr (h c (List.mem_cons_self _ _))
    simp only [setBlockAlloc, List.map_cons, hc, Bool.false_eq_true, if_false]
    have := ih fun x hx => h x (List.mem_cons_of_mem _ hx)
    simpa [setBlockAlloc] using this

/-- `setBlockAlloc` on a decomposition rewrites exactly the decomposition
point. -/
theorem setBlockAlloc_append (l1 l2 : List Block) (b : Block) (t : Nat) (v : Bool)
    (hb : b.addr = t) (h1 : ∀ x ∈ l1, x.addr ≠ t) (h2 : ∀ x ∈ l2, x.addr ≠ t) :
    setBlockAlloc (l1 ++ b :: l2) t v = l1 ++ { b with alloc := v } :: l2 := by
  unfold setBlockAlloc
  rw [List.map_append, List.map_cons]
  have e1 : setBlockAlloc l1 t v = l1 := setBlockAlloc_keep l1 t v h1
  have e2 : setBlockAlloc l2 t v = l2 := setBlockAlloc_keep l2 t v h2
  unfold setBlockAlloc at e1 e2
  rw [e1, e2]
  have hbeq : (b.addr == t) = true := beq_iff_eq.mpr hb
  simp [hbeq]

/-- `splitBlocks` on a decomposition replaces the decomposition point by
its two halves. -/
theorem splitBlocks_append (l1 l2 : List Block) (b : Block) (t sz : Nat)
    (hb : b.addr = t) (h1 : ∀ x ∈ l1, x.addr ≠ t) :
    splitBlocks t sz (l1 ++ b :: l2) =
      l1 ++ ⟨t, sz, true, b.data.take (sz - 16)⟩ ::
        ⟨t + sz, b.size - sz, false, b.data.drop sz⟩ :: l2 := by
  induction l1 with
  | nil => simp [splitBlocks, hb]
  | cons c r ih =>
    have hc : (c.addr == t) = false :=
      beq_eq_false_iff_ne.mpr (h1 c (List.mem_cons_self _ _))
    have hrec := ih fun x hx => h1 x (List.mem_cons_of_mem _ hx)
    simp only [List.cons_append, splitBlocks, hc, Bool.false_eq_true, if_false,
      List.append_eq]
    rw [hrec]

/-- `mergeWithNext` on a decomposition merges the decomposition point with
its immediate successor. -/
theorem mergeWithNext_append (l1 l2 : List Block) (b c : Block) (t : Nat)
    (hb : b.addr = t) (h1 : ∀ x ∈ l1, x.addr ≠ t) :
    mergeWithNext t (l1 ++ b :: c :: l2) =
      l1 ++ ⟨b.addr, b.size + c.size, false,
        b.data ++ List.replicate 16 0 ++ c.data⟩ :: l2 := by
  induction l1 with
  | nil =>
    have hbeq : (b.addr == t) = true := beq_iff_eq.mpr hb
    simp [mergeWithNext, hbeq]
  | cons d r ih =>
    have hd : (d.addr == t) = false :=
      beq_eq_false_iff_ne.mpr (h1 d (List.mem_cons_self _ _))
    have hrec := ih fun x hx => h1 x (List.mem_cons_of_mem _ hx)
    match r with
    | [] =>
      have hbeq : (b.addr == t) = true := beq_iff_eq.mpr hb
      simp [mergeWithNext, hd, hbeq]
    | e :: r' =>
      simp only [List.cons_append, mergeWithNext, hd, Bool.false_eq_true, if_false,
        List.append_eq]
      simp only [List.cons_append] at hrec
      rw [hrec]

/-- The footer jump of `coalesce_left` on a decomposition: the block before
the decomposition point. -/
theorem prevBlk_append (l1 l2 : List Block) (c b : Block) (t : Nat)
    (hb : b.addr = t) (hc : c.addr ≠ t) (h1 : ∀ x ∈ l1, x.addr ≠ t) :
    prevBlk t (l1 ++ c :: b :: l2) = some c := by
  induction l1 with
  | nil =>
    have hbeq : (b.addr == t) = true := beq_iff_eq.mpr hb
    simp [prevBlk, hbeq]
  | cons d r ih =>
    have hrec := ih fun x hx => h1 x (List.mem_cons_of_mem _ hx)
    match r with
    | [] =>
      have hcne : (c.addr == t) = false := beq_eq_false_iff_ne.mpr hc
      simp only [List.nil_append] at hrec
      simp only [List.cons_append, List.nil_append, prevBlk, hcne,
        Bool.false_eq_true, if_false]
      simpa [prevBlk] using hrec
    | e :: r' =>
      have hene : (e.addr == t) = false :=
        beq_eq_false_iff_ne.mpr (h1 e (List.mem_cons_of_mem _ (List.mem_cons_self _ _)))
      simp only [List.cons_append, prevBlk, hene, Bool.false_eq_true, if_false,
        List.append_eq]
      simp only [List.cons_append] at hrec
      exact hrec

/-- A block whose address appears among no successor has no predecessor:
`prevBlk` only inspects successor addresses. -/
theorem prevBlk_head (l2 : List Block) (b : Block) (t : Nat)
    (h2 : ∀ x ∈ l2, x.addr ≠ t) : prevBlk t (b :: l2) = none := by
  induction l2 generalizing b with
  | nil => simp [prevBlk]
  | cons c r ih =>
    have hcne : (c.addr == t) = false :=
      beq_eq_false_iff_ne.mpr (h2 c (List.mem_cons_self _ _))
    simp only [prevBlk, hcne, Bool.false_eq_true, if_false]
    exact ih c fun x hx => h2 x (List.mem_cons_of_mem _ hx)

end MM

namespace MM

/-! ## Facts derived from the invariant -/

/-- Decomposing the block list of an invariant state around a member block:
everything before has a strictly smaller address, everything after a
strictly larger one, and the member's address is the prefix offset. -/
theorem Inv.decomp {s : MMState} (hs : Inv s) (b : Block) (hb : b ∈ s.blocks) :
    ∃ l1 l2, s.blocks = l1 ++ b :: l2 ∧
      (∀ x ∈ l1, x.addr < b.addr) ∧ (∀ x ∈ l2, b.addr < x.addr) ∧
      b.addr = s.heapFirst + 16 + totalSize l1 ∧
      (∀ x ∈ l1, x.addr + x.size ≤ b.addr) ∧
      (∀ x ∈ l2, b.addr + b.size ≤ x.addr) := by
  obtain ⟨l1, l2, hdec⟩ := List.append_of_mem hb
  have hcontig := hs.contig
  rw [hdec] at hcontig
  obtain ⟨haddr, hle, hge⟩ := contiguous_decomp _ l1 l2 b hcontig
  have hposb : 0 < b.size := by
    have := hs.sizeMin b hb
    omega
  refine ⟨l1, l2, hdec, ?_, ?_, haddr, hle, hge⟩
  · intro x hx
    have := hle x hx
    have : 0 < x.size := by
      have := hs.sizeMin x (by rw [hdec]; exact List.mem_append_left _ hx)
      omega
    have := hle x hx
    omega
  · intro x hx
    have := hge x hx
    omega

/-- In an invariant state, a block is determined by its address. -/
theorem Inv.addr_inj {s : MMState} (hs : Inv s) (b c : Block)
    (hb : b ∈ s.blocks) (hc : c ∈ s.blocks) (h : b.addr = c.addr) : b = c := by
  obtain ⟨l1, l2, hdec, hlt, hgt, _, _, _⟩ := hs.decomp b hb
  rw [hdec] at hc
  rcases List.mem_append.mp hc with hc | hc
  · have := hlt c hc; omega
  · rcases List.mem_cons.mp hc with hc | hc
    · exact hc.symm
    · have := hgt c hc; omega

/-- Block lookup in an invariant state finds the member block. -/
theorem Inv.findBlk_eq {s : MMState} (hs : Inv s) (b : Block) (hb : b ∈ s.blocks) :
    findBlk s b.addr = some b := by
  obtain ⟨l1, l2, hdec, hlt, _, _, _, _⟩ := hs.decomp b hb
  unfold findBlk
  rw [hdec]
  exact find?_addr_append l1 l2 b b.addr rfl fun x hx => by have := hlt x hx; omega

/-- Size read of a member block. -/
theorem Inv.sizeAt_eq {s : MMState} (hs : Inv s) (b : Block) (hb : b ∈ s.blocks) :
    sizeAt s b.addr = b.size := by
  unfold sizeAt
  rw [hs.findBlk_eq b hb]

/-- Allocated-flag read of a member block. -/
theorem Inv.allocAt_eq {s : MMState} (hs : Inv s) (b : Block) (hb : b ∈ s.blocks) :
    allocAt s b.addr = b.alloc := by
  unfold allocAt
  rw [hs.findBlk_eq b hb]

/-- Payload read of a member block. -/
theorem Inv.dataAt_eq {s : MMState} (hs : Inv s) (b : Block) (hb : b ∈ s.blocks) :
    dataAt s b.addr = b.data := by
  unfold dataAt
  rw [hs.findBlk_eq b hb]

/-- The address of a free-list node resolves to a unique free member
block. -/
theorem Inv.free_node {s : MMState} (hs : Inv s) (a : Nat) (ha : a ∈ s.freeList) :
    ∃ b ∈ s.blocks, b.addr = a ∧ b.alloc = false := hs.flSub a ha

/-- A run of 16-aligned sizes has 16-aligned total. -/
theorem totalSize_align (l : List Block) (h : ∀ x ∈ l, x.size % 16 = 0) :
    totalSize l % 16 = 0 := by
  induction l with
  | nil => simp [totalSize]
  | cons b t ih =>
    have hb := h b (List.mem_cons_self _ _)
    have ht := ih fun x hx => h x (List.mem_cons_of_mem _ hx)
    simp only [totalSize]
    omega

/-- Every block address of an invariant state is congruent to
`heapFirst mod 16`. -/
theorem Inv.addr_align {s : MMState} (hs : Inv s) (b : Block) (hb : b ∈ s.blocks) :
    b.addr % 16 = s.heapFirst % 16 := by
  obtain ⟨l1, l2, hdec, _, _, haddr, _, _⟩ := hs.decomp b hb
  have hal : totalSize l1 % 16 = 0 := by
    apply totalSize_align
    intro x hx
    exact hs.sizeAlign x (by rw [hdec]; exact List.mem_append_left _ hx)
  omega

/-- The epilogue address of an invariant state is congruent to
`heapFirst mod 16`. -/
theorem Inv.last_align {s : MMState} (hs : Inv s) : s.heapLast % 16 = s.heapFirst % 16 := by
  have hal : totalSize s.blocks % 16 = 0 :=
    totalSize_align s.blocks hs.sizeAlign
  have := hs.last
  omega

/-- The first block of an invariant state sits at `heapFirst + 16`; a block
preceded by others does not. -/
theorem Inv.first_iff {s : MMState} (hs : Inv s) (l1 l2 : List Block) (b : Block)
    (hdec : s.blocks = l1 ++ b :: l2) : b.addr = s.heapFirst + 16 ↔ l1 = [] := by
  have hcontig := hs.contig
  rw [hdec] at hcontig
  obtain ⟨h1, hb, _⟩ := (contiguousFrom_append _ l1 (b :: l2)).mp hcontig
  constructor
  · intro h
    cases l1 with
    | nil => rfl
    | cons c r =>
      have hc := hs.sizeMin c (by rw [hdec]; exact List.mem_append_left _ (List.mem_cons_self _ _))
      have : 32 ≤ totalSize (c :: r) := by
        simp only [totalSize]; omega
      omega
  · intro h
    subst h
    simpa [totalSize] using hb

/-- The prologue pointer of an invariant state is non-null. -/
theorem Inv.hf_ne_zero {s : MMState} (hs : Inv s) : (s.heapFirst == 0) = false := by
  have := hs.hf
  simp [this]

end MM

namespace MM

/-! ## Size arithmetic of malloc -/

/-- `totalSize` distributes over appends. -/
theorem totalSize_append (l1 l2 : List Block) :
    totalSize (l1 ++ l2) = totalSize l1 + totalSize l2 := by
  induction l1 with
  | nil => simp [totalSize]
  | cons b t ih => simp only [List.cons_append, totalSize, List.append_eq, ih]; omega

/-- For requests that stay clear of the `size_t` wrap-around, the adjusted
size is the exact `16 + round-up`, at least 32, 16-aligned, at least 16
more than the request, and safely below the split-threshold wrap. -/
theorem adjSize_spec (sz : Nat) (h1 : 1 ≤ sz) (h2 : sz + 64 ≤ pow64) :
    32 ≤ adjSize sz ∧ adjSize sz % 16 = 0 ∧ sz + 16 ≤ adjSize sz ∧
    32 + adjSize sz < pow64 := by
  have hp : pow64 = 2 ^ 64 := rfl
  unfold adjSize round_up
  have hlt : sz + 16 - 1 < pow64 := by rw [hp] at h2 ⊢; omega
  rw [Nat.mod_eq_of_lt hlt]
  have hdm := Nat.div_add_mod (sz + 16 - 1) 16
  have hr : (sz + 16 - 1) % 16 < 16 := Nat.mod_lt _ (by omega)
  have hlt2 : 16 + (sz + 16 - 1) / 16 * 16 < pow64 := by rw [hp] at h2 ⊢; omega
  rw [Nat.mod_eq_of_lt hlt2]
  rw [hp] at h2
  refine ⟨by omega, by omega, by omega, by rw [hp]; omega⟩

/-! ## The placement engine -/

/-- The scan of `find_fit` walks past every free block too small to
serve the request (provided the split threshold does not wrap). -/
theorem find_fitAux_skip (s : MMState) (adj : Nat) (hadj : 32 + adj < pow64)
    (l1 rest : List Nat) (hmiss : ∀ x ∈ l1, sizeAt s x < adj) :
    find_fitAux s adj (l1 ++ rest) = find_fitAux s adj rest := by
  induction l1 with
  | nil => rfl
  | cons a r ih =>
    have ha := hmiss a (List.mem_cons_self _ _)
    have hm : (2 * 16 + adj) % pow64 = 32 + adj := by
      rw [Nat.mod_eq_of_lt (by omega)]
    have hc1 : ¬ ((2 * 16 + adj) % pow64 ≤ sizeAt s a) := by rw [hm]; omega
    have hc2 : ¬ (adj ≤ sizeAt s a) := by omega
    simp only [List.cons_append, find_fitAux, if_neg hc1, if_neg hc2]
    exact ih fun x hx => hmiss x (List.mem_cons_of_mem _ hx)

/-- The scan of `find_fit` splits the first candidate clearing the split
threshold. -/
theorem find_fitAux_hit_split (s : MMState) (adj a : Nat) (rest : List Nat)
    (hadj : 32 + adj < pow64) (hhit : 32 + adj ≤ sizeAt s a) :
    find_fitAux s adj (a :: rest) = some (split s a adj) := by
  have hc1 : (2 * 16 + adj) % pow64 ≤ sizeAt s a := by
    rw [Nat.mod_eq_of_lt (by omega)]; omega
  simp only [find_fitAux, if_pos hc1]

/-- The scan of `find_fit` takes the first fitting candidate whole when it
clears the request but not the split threshold. -/
theorem find_fitAux_hit_exact (s : MMState) (adj a : Nat) (rest : List Nat)
    (hadj : 32 + adj < pow64) (hge : adj ≤ sizeAt s a)
    (hlt : sizeAt s a < 32 + adj) :
    find_fitAux s adj (a :: rest) =
      some (a, { block_remove s a with
                 blocks := setBlockAlloc (block_remove s a).blocks a true }) := by
  have hc1 : ¬ ((2 * 16 + adj) % pow64 ≤ sizeAt s a) := by
    rw [Nat.mod_eq_of_lt (by omega)]; omega
  simp only [find_fitAux, if_neg hc1, if_pos hge]

/-- Whatever `find_fit`'s scan returns was a node of the scanned chain. -/
theorem find_fitAux_ret_mem (s : MMState) (adj : Nat) (l : List Nat)
    (r : Nat) (s' : MMState) (h : find_fitAux s adj l = some (r, s')) : r ∈ l := by
  induction l with
  | nil => simp [find_fitAux] at h
  | cons a rest ih =>
    by_cases hc1 : (2 * 16 + adj) % pow64 ≤ sizeAt s a
    · simp only [find_fitAux, if_pos hc1] at h
      have hr : a = r := congrArg Prod.fst (Option.some.inj h)
      exact hr ▸ List.mem_cons_self _ _
    · by_cases hc2 : adj ≤ sizeAt s a
      · simp only [find_fitAux, if_neg hc1, if_pos hc2] at h
        have hr : a = r := congrArg Prod.fst (Option.some.inj h)
        exact hr ▸ List.mem_cons_self _ _
      · simp only [find_fitAux, if_neg hc1, if_neg hc2] at h
        exact List.mem_cons_of_mem _ (ih h)

end MM

namespace MM

/-- `split` resolved on an invariant state: the free-list bookkeeping
computes to an erase and a cons, and the assert of the inner
`block_remove` holds. -/
theorem split_state (s : MMState) (hs : Inv s) (b : Block) (hb : b ∈ s.blocks)
    (hfree : b.alloc = false) (sz : Nat) :
    split s b.addr sz =
      (b.addr, { s with
        blocks := splitBlocks b.addr sz s.blocks,
        freeList := (b.addr + sz) :: s.freeList.erase b.addr }) := by
  unfold split block_remove block_append
  rw [removeList_eq_erase s.freeList b.addr hs.flNodup (hs.freeInFl b hb hfree)]
  simp

/-- The split branch of the placement engine: on an invariant state, a free
block large enough to split yields the allocated left half of the requested
size, a free right half of the remainder appended to the free list, and an
invariant state. -/
theorem split_inv (s : MMState) (hs : Inv s) (b : Block) (hb : b ∈ s.blocks)
    (hfree : b.alloc = false) (sz : Nat)
    (hsz32 : 32 ≤ sz) (hszal : sz % 16 = 0) (hszle : sz + 32 ≤ b.size) :
    ∃ l1 l2, s.blocks = l1 ++ b :: l2 ∧
      (split s b.addr sz).2.blocks =
        l1 ++ ⟨b.addr, sz, true, b.data.take (sz - 16)⟩ ::
          ⟨b.addr + sz, b.size - sz, false, b.data.drop sz⟩ :: l2 ∧
      (split s b.addr sz).2.freeList = (b.addr + sz) :: s.freeList.erase b.addr ∧
      (split s b.addr sz).2.heapFirst = s.heapFirst ∧
      (split s b.addr sz).2.heapLast = s.heapLast ∧
      (split s b.addr sz).2.lo = s.lo ∧
      Inv (split s b.addr sz).2 := by
  obtain ⟨l1, l2, hdec, hlt, hgt, haddr, hle, hge⟩ := hs.decomp b hb
  have hbsize := hs.sizeMin b hb
  have hbal := hs.sizeAlign b hb
  have hblen := hs.dataLen b hb
  have hfresh1 : ∀ x ∈ l1, x.addr ≠ b.addr := fun x hx => by have := hlt x hx; omega
  rw [split_state s hs b hb hfree sz]
  have hblocks : splitBlocks b.addr sz s.blocks =
      l1 ++ ⟨b.addr, sz, true, b.data.take (sz - 16)⟩ ::
        ⟨b.addr + sz, b.size - sz, false, b.data.drop sz⟩ :: l2 := by
    rw [hdec]
    exact splitBlocks_append l1 l2 b b.addr sz rfl hfresh1
  -- no other block of s starts strictly inside b
  have hinterior : ∀ c ∈ s.blocks, c ≠ b → c.addr < b.addr ∨ b.addr + b.size ≤ c.addr := by
    intro c hc hcb
    rw [hdec] at hc
    rcases List.mem_append.mp hc with hc | hc
    · exact Or.inl (hlt c hc)
    · rcases List.mem_cons.mp hc with hc | hc
      · exact absurd hc hcb
      · exact Or.inr (hge c hc)
  -- the fresh right-half address collides with no free-list node
  have hnotin : b.addr + sz ∉ s.freeList.erase b.addr := by
    intro hmem
    have hmem' := (hs.flNodup.mem_erase_iff).mp hmem
    obtain ⟨c, hc, hcaddr, _⟩ := hs.flSub _ hmem'.2
    have hcb : c ≠ b := by
      intro hcb
      subst hcb
      omega
    rcases hinterior c hc hcb with h | h <;> omega
  refine ⟨l1, l2, hdec, hblocks, rfl, rfl, rfl, rfl, ?_⟩
  constructor
  case hf => exact hs.hf
  case contig =>
    show contiguousFrom _ (splitBlocks b.addr sz s.blocks)
    rw [hblocks]
    have hc0 := hs.contig
    rw [hdec] at hc0
    obtain ⟨hc1, hc2⟩ := (contiguousFrom_append _ l1 (b :: l2)).mp hc0
    obtain ⟨hcb, hcl2⟩ := hc2
    refine (contiguousFrom_append _ l1 _).mpr ⟨hc1, ?_⟩
    simp only [contiguousFrom]
    refine ⟨hcb, by omega, ?_⟩
    have harith : s.heapFirst + 16 + totalSize l1 + sz + (b.size - sz) =
        s.heapFirst + 16 + totalSize l1 + b.size := by omega
    rw [harith]
    exact hcl2
  case last =>
    show s.heapLast = _ + 16 + totalSize (splitBlocks b.addr sz s.blocks)
    rw [hblocks, totalSize_append]
    have := hs.last
    rw [hdec, totalSize_append] at this
    simp only [totalSize] at this ⊢
    omega
  case sizeMin =>
    intro x hx
    simp only [hblocks] at hx
    rcases List.mem_append.mp hx with hx | hx
    · exact hs.sizeMin x (by rw [hdec]; exact List.mem_append_left _ hx)
    · rcases List.mem_cons.mp hx with hx | hx
      · subst hx; exact hsz32
      · rcases List.mem_cons.mp hx with hx | hx
        · subst hx; simp; omega
        · exact hs.sizeMin x (by rw [hdec]; exact List.mem_append_right _ (List.mem_cons_of_mem _ hx))
  case sizeAlign =>
    intro x hx
    simp only [hblocks] at hx
    rcases List.mem_append.mp hx with hx | hx
    · exact hs.sizeAlign x (by rw [hdec]; exact List.mem_append_left _ hx)
    · rcases List.mem_cons.mp hx with hx | hx
      · subst hx; exact hszal
      · rcases List.mem_cons.mp hx with hx | hx
        · subst hx; simp; omega
        · exact hs.sizeAlign x (by rw [hdec]; exact List.mem_append_right _ (List.mem_cons_of_mem _ hx))
  case dataLen =>
    intro x hx
    simp only [hblocks] at hx
    rcases List.mem_append.mp hx with hx | hx
    · exact hs.dataLen x (by rw [hdec]; exact List.mem_append_left _ hx)
    · rcases List.mem_cons.mp hx with hx | hx
      · subst hx
        simp only [List.length_take]
        omega
      · rcases List.mem_cons.mp hx with hx | hx
        · subst hx
          simp only [List.length_drop]
          omega
        · exact hs.dataLen x (by rw [hdec]; exact List.mem_append_right _ (List.mem_cons_of_mem _ hx))
  case flNodup =>
    exact List.Nodup.cons hnotin (hs.flNodup.erase _)
  case flSub =>
    intro a ha
    rcases List.mem_cons.mp ha with ha | ha
    · refine ⟨⟨b.addr + sz, b.size - sz, false, b.data.drop sz⟩, ?_, by simp [ha], rfl⟩
      rw [hblocks]
      exact List.mem_append_right _ (List.mem_cons_of_mem _ (List.mem_cons_self _ _))
    · have ha' := (hs.flNodup.mem_erase_iff).mp ha
      obtain ⟨c, hc, hcaddr, hcfree⟩ := hs.flSub _ ha'.2
      have hcb : c ≠ b := by
        intro h
        rw [h] at hcaddr
        exact ha'.1 hcaddr.symm
      refine ⟨c, ?_, hcaddr, hcfree⟩
      rw [hdec] at hc
      rw [hblocks]
      rcases List.mem_append.mp hc with hc | hc
      · exact List.mem_append_left _ hc
      · rcases List.mem_cons.mp hc with hc | hc
        · exact absurd hc hcb
        · exact List.mem_append_right _ (List.mem_cons_of_mem _ (List.mem_cons_of_mem _ hc))
  case freeInFl =>
    intro x hx hxfree
    show x.addr ∈ (b.addr + sz) :: s.freeList.erase b.addr
    rw [hblocks] at hx
    rcases List.mem_append.mp hx with hxl | hxr
    · have hxs : x ∈ s.blocks := by rw [hdec]; exact List.mem_append_left _ hxl
      have hxb : x ≠ b := by
        intro h
        rw [h] at hxl
        have := hlt b hxl
        omega
      have hxa : x.addr ∈ s.freeList := hs.freeInFl x hxs hxfree
      have hxne : x.addr ≠ b.addr := by
        rcases hinterior x hxs hxb with h | h <;> omega
      exact List.mem_cons_of_mem _ ((List.mem_erase_of_ne hxne).mpr hxa)
    · rcases List.mem_cons.mp hxr with hx1 | hxr2
      · rw [hx1] at hxfree
        simp at hxfree
      · rcases List.mem_cons.mp hxr2 with hx2 | hxl2
        · rw [hx2]
          exact List.mem_cons_self _ _
        · have hxs : x ∈ s.blocks := by
            rw [hdec]
            exact List.mem_append_right _ (List.mem_cons_of_mem _ hxl2)
          have hxb : x ≠ b := by
            intro h
            rw [h] at hxl2
            have := hgt b hxl2
            omega
          have hxa : x.addr ∈ s.freeList := hs.freeInFl x hxs hxfree
          have hxne : x.addr ≠ b.addr := by
            rcases hinterior x hxs hxb with h | h <;> omega
          exact List.mem_cons_of_mem _ ((List.mem_erase_of_ne hxne).mpr hxa)
  case noAdj =>
    show List.Chain' _ (splitBlocks b.addr sz s.blocks)
    rw [hblocks]
    have hch := hs.noAdj
    rw [hdec] at hch
    obtain ⟨ch1, chb, hlink⟩ := List.chain'_append.mp hch
    obtain ⟨hbl2, chl2⟩ := List.chain'_cons'.mp chb
    refine List.chain'_append.mpr ⟨ch1, ?_, ?_⟩
    · refine List.chain'_cons.mpr ⟨Or.inl rfl, ?_⟩
      refine List.chain'_cons'.mpr ⟨?_, chl2⟩
      intro y hy
      have := hbl2 y hy
      rcases this with h | h
      · rw [hfree] at h; cases h
      · exact Or.inr h
    · intro x hx y hy
      simp only [List.head?_cons, Option.mem_def, Option.some.injEq] at hy
      subst hy
      exact Or.inr rfl
  case aok => exact hs.aok
end MM

namespace MM

/-- The no-split branch state of `find_fit` resolved on an invariant state:
removing the block and marking it allocated. -/
theorem exact_state (s : MMState) (hs : Inv s) (b : Block) (hb : b ∈ s.blocks)
    (hfree : b.alloc = false) :
    { block_remove s b.addr with
      blocks := setBlockAlloc (block_remove s b.addr).blocks b.addr true } =
    { s with blocks := setBlockAlloc s.blocks b.addr true,
             freeList := s.freeList.erase b.addr } := by
  unfold block_remove
  rw [removeList_eq_erase s.freeList b.addr hs.flNodup (hs.freeInFl b hb hfree)]
  simp

/-- The no-split branch of the placement engine preserves the invariant:
the first-fitting free block is removed from the free list and marked
allocated in place. -/
theorem exact_inv (s : MMState) (hs : Inv s) (b : Block) (hb : b ∈ s.blocks)
    (hfree : b.alloc = false) :
    ∃ l1 l2, s.blocks = l1 ++ b :: l2 ∧
      setBlockAlloc s.blocks b.addr true = l1 ++ { b with alloc := true } :: l2 ∧
      Inv { s with blocks := setBlockAlloc s.blocks b.addr true,
                   freeList := s.freeList.erase b.addr } := by
  obtain ⟨l1, l2, hdec, hlt, hgt, haddr, hle, hge⟩ := hs.decomp b hb
  have hfresh1 : ∀ x ∈ l1, x.addr ≠ b.addr := fun x hx => by have := hlt x hx; omega
  have hfresh2 : ∀ x ∈ l2, x.addr ≠ b.addr := fun x hx => by have := hgt x hx; omega
  have hblocks : setBlockAlloc s.blocks b.addr true =
      l1 ++ { b with alloc := true } :: l2 := by
    rw [hdec]
    exact setBlockAlloc_append l1 l2 b b.addr true rfl hfresh1 hfresh2
  have hinterior : ∀ c ∈ s.blocks, c ≠ b → c.addr ≠ b.addr := by
    intro c hc hcb
    rw [hdec] at hc
    rcases List.mem_append.mp hc with hc | hc
    · have := hlt c hc; omega
    · rcases List.mem_cons.mp hc with hc | hc
      · exact absurd hc hcb
      · have := hgt c hc; omega
  refine ⟨l1, l2, hdec, hblocks, ?_⟩
  constructor
  case hf => exact hs.hf
  case contig =>
    show contiguousFrom _ (setBlockAlloc s.blocks b.addr true)
    rw [hblocks]
    have hc0 := hs.contig
    rw [hdec] at hc0
    obtain ⟨hc1, hc2⟩ := (contiguousFrom_append _ l1 (b :: l2)).mp hc0
    obtain ⟨hcb, hcl2⟩ := hc2
    refine (contiguousFrom_append _ l1 _).mpr ⟨hc1, ?_⟩
    simp only [contiguousFrom]
    exact ⟨hcb, hcl2⟩
  case last =>
    show s.heapLast = _ + 16 + totalSize (setBlockAlloc s.blocks b.addr true)
    rw [hblocks, totalSize_append]
    have := hs.last
    rw [hdec, totalSize_append] at this
    simp only [totalSize] at this ⊢
    omega
  case sizeMin =>
    intro x hx
    rw [hblocks] at hx
    rcases List.mem_append.mp hx with hx | hx
    · exact hs.sizeMin x (by rw [hdec]; exact List.mem_append_left _ hx)
    · rcases List.mem_cons.mp hx with hx | hx
      · rw [hx]; exact hs.sizeMin b hb
      · exact hs.sizeMin x (by rw [hdec]; exact List.mem_append_right _ (List.mem_cons_of_mem _ hx))
  case sizeAlign =>
    intro x hx
    rw [hblocks] at hx
    rcases List.mem_append.mp hx with hx | hx
    · exact hs.sizeAlign x (by rw [hdec]; exact List.mem_append_left _ hx)
    · rcases List.mem_cons.mp hx with hx | hx
      · rw [hx]; exact hs.sizeAlign b hb
      · exact hs.sizeAlign x (by rw [hdec]; exact List.mem_append_right _ (List.mem_cons_of_mem _ hx))
  case dataLen =>
    intro x hx
    rw [hblocks] at hx
    rcases List.mem_append.mp hx with hx | hx
    · exact hs.dataLen x (by rw [hdec]; exact List.mem_append_left _ hx)
    · rcases List.mem_cons.mp hx with hx | hx
      · rw [hx]; exact hs.dataLen b hb
      · exact hs.dataLen x (by rw [hdec]; exact List.mem_append_right _ (List.mem_cons_of_mem _ hx))
  case flNodup => exact hs.flNodup.erase _
  case flSub =>
    intro a ha
    have ha' := (hs.flNodup.mem_erase_iff).mp ha
    obtain ⟨c, hc, hcaddr, hcfree⟩ := hs.flSub _ ha'.2
    have hcb : c ≠ b := by
      intro h
      rw [h] at hcaddr
      exact ha'.1 hcaddr.symm
    refine ⟨c, ?_, hcaddr, hcfree⟩
    rw [hdec] at hc
    rw [hblocks]
    rcases List.mem_append.mp hc with hc | hc
    · exact List.mem_append_left _ hc
    · rcases List.mem_cons.mp hc with hc | hc
      · exact absurd hc hcb
      · exact List.mem_append_right _ (List.mem_cons_of_mem _ hc)
  case freeInFl =>
    intro x hx hxfree
    show x.addr ∈ s.freeList.erase b.addr
    rw [hblocks] at hx
    rcases List.mem_append.mp hx with hxl | hxr
    · have hxs : x ∈ s.blocks := by rw [hdec]; exact List.mem_append_left _ hxl
      have hxb : x ≠ b := by
        intro h
        rw [h] at hxl
        have := hlt b hxl
        omega
      exact (List.mem_erase_of_ne (hinterior x hxs hxb)).mpr (hs.freeInFl x hxs hxfree)
    · rcases List.mem_cons.mp hxr with hx1 | hxl2
      · rw [hx1] at hxfree
        simp at hxfree
      · have hxs : x ∈ s.blocks := by
          rw [hdec]
          exact List.mem_append_right _ (List.mem_cons_of_mem _ hxl2)
        have hxb : x ≠ b := by
          intro h
          rw [h] at hxl2
          have := hgt b hxl2
          omega
        exact (List.mem_erase_of_ne (hinterior x hxs hxb)).mpr (hs.freeInFl x hxs hxfree)
  case noAdj =>
    show List.Chain' _ (setBlockAlloc s.blocks b.addr true)
    rw [hblocks]
    have hch := hs.noAdj
    rw [hdec] at hch
    obtain ⟨ch1, chb, hlink⟩ := List.chain'_append.mp hch
    obtain ⟨_, chl2⟩ := List.chain'_cons'.mp chb
    refine List.chain'_append.mpr ⟨ch1, ?_, ?_⟩
    · refine List.chain'_cons'.mpr ⟨?_, chl2⟩
      intro y _
      exact Or.inl rfl
    · intro x hx y hy
      simp only [List.head?_cons, Option.mem_def, Option.some.injEq] at hy
      rw [← hy]
      exact Or.inr rfl
  case aok => exact hs.aok

/-- `mem_sbrk` touches nothing but the mapped-size counter. -/
theorem mem_sbrk_proj (s : MMState) (n : Nat) :
    (mem_sbrk s n).2.blocks = s.blocks ∧ (mem_sbrk s n).2.heapLast = s.heapLast ∧
    (mem_sbrk s n).2.heapFirst = s.heapFirst ∧ (mem_sbrk s n).2.freeList = s.freeList ∧
    (mem_sbrk s n).2.lo = s.lo ∧ (mem_sbrk s n).2.assertOk = s.assertOk ∧
    (mem_sbrk s n).2.cap = s.cap := by
  unfold mem_sbrk
  by_cases h : s.brk + n ≤ s.cap <;> simp [h]

/-- `create_space` characterized and invariant-preserving: the new block is
carved at the old epilogue — whether or not the arena actually grew — and
the epilogue advances past it. -/
theorem create_inv (s : MMState) (hs : Inv s) (n : Nat)
    (hn32 : 32 ≤ n) (hnal : n % 16 = 0) :
    (create_space s n).1 = s.heapLast ∧
    (create_space s n).2.blocks =
      s.blocks ++ [⟨s.heapLast, n, true, List.replicate (n - 16) 0⟩] ∧
    (create_space s n).2.freeList = s.freeList ∧
    (create_space s n).2.heapFirst = s.heapFirst ∧
    (create_space s n).2.heapLast = s.heapLast + n ∧
    (create_space s n).2.lo = s.lo ∧
    Inv (create_space s n).2 := by
  obtain ⟨hpb, hpl, hpf, hpfl, hplo, hpa, hpc⟩ := mem_sbrk_proj s n
  have h1 : (create_space s n).1 = s.heapLast := by
    have h : (create_space s n).1 = (mem_sbrk s n).2.heapLast := rfl
    rw [h, hpl]
  have hb : (create_space s n).2.blocks =
      s.blocks ++ [⟨s.heapLast, n, true, List.replicate (n - 16) 0⟩] := by
    have h : (create_space s n).2.blocks = (mem_sbrk s n).2.blocks ++
        [⟨(mem_sbrk s n).2.heapLast, n, true, List.replicate (n - 16) 0⟩] := rfl
    rw [h, hpb, hpl]
  have hfl : (create_space s n).2.freeList = s.freeList := by
    have h : (create_space s n).2.freeList = (mem_sbrk s n).2.freeList := rfl
    rw [h, hpfl]
  have hhf : (create_space s n).2.heapFirst = s.heapFirst := by
    have h : (create_space s n).2.heapFirst = (mem_sbrk s n).2.heapFirst := rfl
    rw [h, hpf]
  have hhl : (create_space s n).2.heapLast = s.heapLast + n := by
    have h : (create_space s n).2.heapLast = (mem_sbrk s n).2.heapLast + n := rfl
    rw [h, hpl]
  have hlo : (create_space s n).2.lo = s.lo := by
    have h : (create_space s n).2.lo = (mem_sbrk s n).2.lo := rfl
    rw [h, hplo]
  have haok : (create_space s n).2.assertOk = s.assertOk := by
    have h : (create_space s n).2.assertOk = (mem_sbrk s n).2.assertOk := rfl
    rw [h, hpa]
  refine ⟨h1, hb, hfl, hhf, hhl, hlo, ?_⟩
  constructor
  case hf => rw [hhf, hlo]; exact hs.hf
  case contig =>
    rw [hb, hhf]
    refine (contiguousFrom_append _ s.blocks _).mpr ⟨hs.contig, ?_⟩
    simp only [contiguousFrom]
    exact ⟨hs.last, trivial⟩
  case last =>
    rw [hb, hhl, hhf, totalSize_append]
    have := hs.last
    simp only [totalSize]
    omega
  case sizeMin =>
    intro x hx
    rw [hb] at hx
    rcases List.mem_append.mp hx with hx | hx
    · exact hs.sizeMin x hx
    · rw [List.mem_singleton.mp hx]; exact hn32
  case sizeAlign =>
    intro x hx
    rw [hb] at hx
    rcases List.mem_append.mp hx with hx | hx
    · exact hs.sizeAlign x hx
    · rw [List.mem_singleton.mp hx]; exact hnal
  case dataLen =>
    intro x hx
    rw [hb] at hx
    rcases List.mem_append.mp hx with hx | hx
    · exact hs.dataLen x hx
    · rw [List.mem_singleton.mp hx]; simp
  case flNodup => rw [hfl]; exact hs.flNodup
  case flSub =>
    intro a ha
    rw [hfl] at ha
    obtain ⟨c, hc, hcaddr, hcfree⟩ := hs.flSub a ha
    exact ⟨c, by rw [hb]; exact List.mem_append_left _ hc, hcaddr, hcfree⟩
  case freeInFl =>
    intro x hx hxfree
    rw [hfl]
    rw [hb] at hx
    rcases List.mem_append.mp hx with hx | hx
    · exact hs.freeInFl x hx hxfree
    · rw [List.mem_singleton.mp hx] at hxfree
      simp at hxfree
  case noAdj =>
    rw [hb]
    refine List.chain'_append.mpr ⟨hs.noAdj, List.chain'_singleton _, ?_⟩
    intro x hx y hy
    simp only [List.head?_cons, Option.mem_def, Option.some.injEq] at hy
    rw [← hy]
    exact Or.inr rfl
  case aok => rw [haok]; exact hs.aok

end MM

namespace MM

/-- Any chain splits at the first node that fits a request (or misses
everywhere). -/
theorem first_fit_split (s : MMState) (adj : Nat) (l : List Nat) :
    (∀ x ∈ l, sizeAt s x < adj) ∨
    ∃ l1 a l2, l = l1 ++ a :: l2 ∧ (∀ x ∈ l1, sizeAt s x < adj) ∧
      adj ≤ sizeAt s a := by
  induction l with
  | nil => exact Or.inl (by simp)
  | cons a rest ih =>
    by_cases ha : adj ≤ sizeAt s a
    · exact Or.inr ⟨[], a, rest, by simp, by simp, ha⟩
    · rcases ih with h | ⟨l1, b, l2, hdec, hmiss, hfit⟩
      · refine Or.inl ?_
        intro x hx
        rcases List.mem_cons.mp hx with hx | hx
        · rw [hx]; omega
        · exact h x hx
      · refine Or.inr ⟨a :: l1, b, l2, by rw [hdec]; rfl, ?_, hfit⟩
        intro x hx
        rcases List.mem_cons.mp hx with hx | hx
        · rw [hx]; omega
        · exact hmiss x hx

/-- A zero-byte request returns null and changes nothing on an initialized
heap. -/
theorem malloc_zero (s : MMState) (hs : Inv s) : malloc s 0 = (none, s) := by
  simp [malloc, hs.hf_ne_zero]

/-- The main characterization of `malloc` for requests clear of the
`size_t` wrap: it returns a non-null payload pointer into an allocated
block big enough for the request, preserves the invariant, and leaves
every other allocated block (and its payload) untouched. -/
theorem malloc_main (s : MMState) (hs : Inv s) (sz : Nat)
    (h1 : 1 ≤ sz) (h2 : sz + 64 ≤ pow64) :
    ∃ q s', malloc s sz = (some q, s') ∧ Inv s' ∧
      s'.heapFirst = s.heapFirst ∧ s'.lo = s.lo ∧
      ∃ nb ∈ s'.blocks, q = nb.addr + 8 ∧ nb.alloc = true ∧
        adjSize sz ≤ nb.size ∧ nb.data.length = nb.size - 16 ∧
        ∀ x ∈ s.blocks, x.alloc = true → x ∈ s'.blocks ∧ x.addr ≠ nb.addr := by
  obtain ⟨ha32, hal, hage, hasafe⟩ := adjSize_spec sz h1 h2
  have hne : (sz == 0) = false := beq_eq_false_iff_ne.mpr (by omega)
  rcases first_fit_split s (adjSize sz) s.freeList with hmiss | ⟨fl1, a, fl2, hdecfl, hmiss, hfit⟩
  · -- no free block fits: the request is served by growing the arena
    have hff : find_fit s (adjSize sz) = none := by
      unfold find_fit
      have h := find_fitAux_skip s (adjSize sz) hasafe s.freeList [] hmiss
      rw [List.append_nil] at h
      exact h
    obtain ⟨hc1, hcb, hcfl, hchf, hchl, hclo, hcInv⟩ := create_inv s hs (adjSize sz) ha32 hal
    refine ⟨s.heapLast + 8, (create_space s (adjSize sz)).2, ?_, hcInv, hchf, hclo, ?_⟩
    · simp only [malloc, hs.hf_ne_zero, Bool.false_eq_true, if_false, hne, hff]
      rw [hc1]
    · refine ⟨⟨s.heapLast, adjSize sz, true, List.replicate (adjSize sz - 16) 0⟩,
        ?_, rfl, rfl, le_refl _, by simp, ?_⟩
      · rw [hcb]
        exact List.mem_append_right _ (List.mem_cons_self _ _)
      · intro x hx hxal
        refine ⟨by rw [hcb]; exact List.mem_append_left _ hx, ?_⟩
        show x.addr ≠ s.heapLast
        have hr := contiguous_mem_range _ s.blocks hs.contig x hx
        have hxs := hs.sizeMin x hx
        have hl := hs.last
        omega
  · -- some free block fits first at `a`
    obtain ⟨b, hb, hcaddr, hfree⟩ := hs.flSub a
      (by rw [hdecfl]; exact List.mem_append_right _ (List.mem_cons_self _ _))
    subst hcaddr
    rw [hs.sizeAt_eq b hb] at hfit
    by_cases hsplitcase : 32 + adjSize sz ≤ b.size
    · -- the candidate clears the split threshold
      have hffaux : find_fitAux s (adjSize sz) s.freeList =
          some (split s b.addr (adjSize sz)) := by
        rw [hdecfl, find_fitAux_skip s _ hasafe fl1 _ hmiss]
        exact find_fitAux_hit_split s _ b.addr fl2 hasafe
          (by rw [hs.sizeAt_eq b hb]; omega)
      obtain ⟨l1, l2, hdec, hblocks, hfl, hhf, hhl, hlo, hInv⟩ :=
        split_inv s hs b hb hfree (adjSize sz) ha32 hal (by omega)
      have hpair : split s b.addr (adjSize sz) =
          (b.addr, (split s b.addr (adjSize sz)).2) := by
        rw [split_state s hs b hb hfree (adjSize sz)]
      have hff : find_fit s (adjSize sz) =
          some (b.addr, (split s b.addr (adjSize sz)).2) := by
        unfold find_fit
        rw [hffaux]
        exact congrArg some hpair
      refine ⟨b.addr + 8, (split s b.addr (adjSize sz)).2, ?_, hInv, hhf, hlo, ?_⟩
      · simp only [malloc, hs.hf_ne_zero, Bool.false_eq_true, if_false, hne, hff]
      · refine ⟨⟨b.addr, adjSize sz, true, b.data.take (adjSize sz - 16)⟩,
          ?_, rfl, rfl, le_refl _, ?_, ?_⟩
        · rw [hblocks]
          exact List.mem_append_right _ (List.mem_cons_self _ _)
        · have hbl := hs.dataLen b hb
          have hbs := hs.sizeMin b hb
          simp only [List.length_take]
          omega
        · intro x hx hxal
          have hxb : x ≠ b := by
            intro h
            rw [h] at hxal
            rw [hfree] at hxal
            cases hxal
          have hxmem : x ∈ (split s b.addr (adjSize sz)).2.blocks := by
            have hx' := hx
            rw [hdec] at hx'
            rw [hblocks]
            rcases List.mem_append.mp hx' with hx' | hx'
            · exact List.mem_append_left _ hx'
            · rcases List.mem_cons.mp hx' with hx' | hx'
              · exact absurd hx' hxb
              · exact List.mem_append_right _
                  (List.mem_cons_of_mem _ (List.mem_cons_of_mem _ hx'))
          refine ⟨hxmem, ?_⟩
          show x.addr ≠ b.addr
          intro h
          exact hxb (hs.addr_inj x b hx hb h)
    · -- the candidate fits but is too small to split: taken whole
      have hffaux : find_fitAux s (adjSize sz) s.freeList =
          some (b.addr, { block_remove s b.addr with
            blocks := setBlockAlloc (block_remove s b.addr).blocks b.addr true }) := by
        rw [hdecfl, find_fitAux_skip s _ hasafe fl1 _ hmiss]
        exact find_fitAux_hit_exact s _ b.addr fl2 hasafe
          (by rw [hs.sizeAt_eq b hb]; omega)
          (by rw [hs.sizeAt_eq b hb]; omega)
      have hstate := exact_state s hs b hb hfree
      obtain ⟨l1, l2, hdec, hblocks, hInv⟩ := exact_inv s hs b hb hfree
      refine ⟨b.addr + 8,
        { s with blocks := setBlockAlloc s.blocks b.addr true,
                 freeList := s.freeList.erase b.addr }, ?_, hInv, rfl, rfl, ?_⟩
      · simp only [malloc, hs.hf_ne_zero, Bool.false_eq_true, if_false, hne,
          find_fit, hffaux, hstate]
      · refine ⟨{ b with alloc := true }, ?_, rfl, rfl,
          by show adjSize sz ≤ b.size; omega, ?_, ?_⟩
        · show { b with alloc := true } ∈ setBlockAlloc s.blocks b.addr true
          rw [hblocks]
          exact List.mem_append_right _ (List.mem_cons_self _ _)
        · exact hs.dataLen b hb
        · intro x hx hxal
          have hxb : x ≠ b := by
            intro h
            rw [h] at hxal
            rw [hfree] at hxal
            cases hxal
          have hxmem : x ∈ setBlockAlloc s.blocks b.addr true := by
            have hx' := hx
            rw [hdec] at hx'
            rw [hblocks]
            rcases List.mem_append.mp hx' with hx' | hx'
            · exact List.mem_append_left _ hx'
            · rcases List.mem_cons.mp hx' with hx' | hx'
              · exact absurd hx' hxb
              · exact List.mem_append_right _ (List.mem_cons_of_mem _ hx')
          refine ⟨hxmem, ?_⟩
          show x.addr ≠ b.addr
          intro h
          exact hxb (hs.addr_inj x b hx hb h)

end MM

namespace MM

/-- Rebuilding the invariant after a coalesce: if a nonempty consecutive
segment of the blocks of an invariant state `s` is replaced by one free
block `F` covering exactly the segment, the free list is rebuilt as `F`
at the head followed by the old free nodes outside the segment, and the
blocks flanking the segment are allocated, then the resulting state is
invariant again. -/
theorem Inv_glue (s t : MMState) (hs : Inv s)
    (La Ra seg : List Block) (F : Block) (flr : List Nat)
    (hseg : seg ≠ [])
    (hdec : s.blocks = La ++ (seg ++ Ra))
    (htb : t.blocks = La ++ F :: Ra)
    (htfl : t.freeList = F.addr :: flr)
    (hthf : t.heapFirst = s.heapFirst) (hthl : t.heapLast = s.heapLast)
    (htlo : t.lo = s.lo) (htaok : t.assertOk = true)
    (hFaddr : F.addr = s.heapFirst + 16 + totalSize La)
    (hFsize : F.size = totalSize seg)
    (hFfree : F.alloc = false)
    (hFlen : F.data.length = F.size - 16)
    (hLaLast : ∀ x, La.getLast? = some x → x.alloc = true)
    (hRaHead : ∀ x, Ra.head? = some x → x.alloc = true)
    (hflr_nd : flr.Nodup)
    (hflr : ∀ x, x ∈ flr ↔ x ∈ s.freeList ∧ ∀ g ∈ seg, g.addr ≠ x) :
    Inv t := by
  have hLa_sub : ∀ x ∈ La, x ∈ s.blocks := by
    intro x hx
    rw [hdec]
    exact List.mem_append_left _ hx
  have hseg_sub : ∀ x ∈ seg, x ∈ s.blocks := by
    intro x hx
    rw [hdec]
    exact List.mem_append_right _ (List.mem_append_left _ hx)
  have hRa_sub : ∀ x ∈ Ra, x ∈ s.blocks := by
    intro x hx
    rw [hdec]
    exact List.mem_append_right _ (List.mem_append_right _ hx)
  have hc0 := hs.contig
  rw [hdec] at hc0
  obtain ⟨hcLa, hcrest⟩ := (contiguousFrom_append _ La (seg ++ Ra)).mp hc0
  obtain ⟨hcseg, hcRa⟩ := (contiguousFrom_append _ seg Ra).mp hcrest
  -- address bounds of the three zones
  have hLa_lt : ∀ x ∈ La, x.addr < F.addr := by
    intro x hx
    have hr := contiguous_mem_range _ La hcLa x hx
    have := hs.sizeMin x (hLa_sub x hx)
    omega
  have hseg_range : ∀ g ∈ seg, F.addr ≤ g.addr ∧ g.addr < F.addr + F.size := by
    intro g hg
    have hr := contiguous_mem_range _ seg hcseg g hg
    have := hs.sizeMin g (hseg_sub g hg)
    omega
  have hRa_ge : ∀ x ∈ Ra, F.addr + F.size ≤ x.addr := by
    intro x hx
    have hr := contiguous_mem_range _ Ra hcRa x hx
    omega
  have hF32 : 32 ≤ F.size := by
    rw [hFsize]
    match seg, hseg with
    | g :: rest, _ =>
      have := hs.sizeMin g (hseg_sub g (List.mem_cons_self _ _))
      simp only [totalSize]
      omega
  have hseg_head : ∀ g rest, seg = g :: rest → g.addr = F.addr := by
    intro g rest hg
    rw [hg] at hcseg
    obtain ⟨h1, _⟩ := hcseg
    omega
  constructor
  case hf => rw [hthf, htlo]; exact hs.hf
  case contig =>
    rw [htb, hthf]
    refine (contiguousFrom_append _ La _).mpr ⟨hcLa, ?_⟩
    simp only [contiguousFrom]
    refine ⟨hFaddr, ?_⟩
    have harith : s.heapFirst + 16 + totalSize La + F.size =
        s.heapFirst + 16 + totalSize La + totalSize seg := by omega
    rw [harith]
    exact hcRa
  case last =>
    rw [htb, hthl, hthf, totalSize_append]
    have hl := hs.last
    rw [hdec, totalSize_append, totalSize_append] at hl
    simp only [totalSize]
    omega
  case sizeMin =>
    intro x hx
    rw [htb] at hx
    rcases List.mem_append.mp hx with hx | hx
    · exact hs.sizeMin x (hLa_sub x hx)
    · rcases List.mem_cons.mp hx with hx | hx
      · rw [hx]; exact hF32
      · exact hs.sizeMin x (hRa_sub x hx)
  case sizeAlign =>
    intro x hx
    rw [htb] at hx
    rcases List.mem_append.mp hx with hx | hx
    · exact hs.sizeAlign x (hLa_sub x hx)
    · rcases List.mem_cons.mp hx with hx | hx
      · rw [hx, hFsize]
        exact totalSize_align seg fun g hg => hs.sizeAlign g (hseg_sub g hg)
      · exact hs.sizeAlign x (hRa_sub x hx)
  case dataLen =>
    intro x hx
    rw [htb] at hx
    rcases List.mem_append.mp hx with hx | hx
    · exact hs.dataLen x (hLa_sub x hx)
    · rcases List.mem_cons.mp hx with hx | hx
      · rw [hx]; exact hFlen
      · exact hs.dataLen x (hRa_sub x hx)
  case flNodup =>
    rw [htfl]
    refine List.Nodup.cons ?_ hflr_nd
    intro hmem
    obtain ⟨_, hfresh⟩ := (hflr _).mp hmem
    match seg, hseg with
    | g :: rest, _ =>
      exact hfresh g (List.mem_cons_self _ _) (hseg_head g rest rfl)
  case flSub =>
    intro x hx
    rw [htfl] at hx
    rcases List.mem_cons.mp hx with hx | hx
    · refine ⟨F, ?_, hx.symm, hFfree⟩
      rw [htb]
      exact List.mem_append_right _ (List.mem_cons_self _ _)
    · obtain ⟨hxfl, hfresh⟩ := (hflr _).mp hx
      obtain ⟨c, hc, hcaddr, hcfree⟩ := hs.flSub x hxfl
      rw [hdec] at hc
      rcases List.mem_append.mp hc with hc | hc
      · exact ⟨c, by rw [htb]; exact List.mem_append_left _ hc, hcaddr, hcfree⟩
      · rcases List.mem_append.mp hc with hc | hc
        · exact absurd hcaddr (hfresh c hc)
        · exact ⟨c, by rw [htb]; exact List.mem_append_right _ (List.mem_cons_of_mem _ hc),
            hcaddr, hcfree⟩
  case freeInFl =>
    intro x hx hxfree
    rw [htfl]
    rw [htb] at hx
    rcases List.mem_append.mp hx with hx | hx
    · refine List.mem_cons_of_mem _ ((hflr _).mpr ⟨hs.freeInFl x (hLa_sub x hx) hxfree, ?_⟩)
      intro g hg
      have h1 := hseg_range g hg
      have h2 := hLa_lt x hx
      omega
    · rcases List.mem_cons.mp hx with hx | hx
      · rw [hx]
        exact List.mem_cons_self _ _
      · refine List.mem_cons_of_mem _ ((hflr _).mpr ⟨hs.freeInFl x (hRa_sub x hx) hxfree, ?_⟩)
        intro g hg
        have h1 := hseg_range g hg
        have h2 := hRa_ge x hx
        omega
  case noAdj =>
    rw [htb]
    have hch := hs.noAdj
    rw [hdec] at hch
    obtain ⟨chLa, chRest, hlink⟩ := List.chain'_append.mp hch
    obtain ⟨_, chRa, _⟩ := List.chain'_append.mp chRest
    refine List.chain'_append.mpr ⟨chLa, ?_, ?_⟩
    · refine List.chain'_cons'.mpr ⟨?_, chRa⟩
      intro y hy
      exact Or.inr (hRaHead y (by simpa using hy))
    · intro x hx y hy
      simp only [List.head?_cons, Option.mem_def, Option.some.injEq] at hy
      refine Or.inl (hLaLast x ?_)
      simpa using hx
  case aok => exact htaok

end MM

namespace MM

/-- `coalesce_left` stops at the prologue boundary. -/
theorem coalesce_left_first (t : MMState) (a : Nat) (h : a = t.heapFirst + 16) :
    coalesce_left t a = (a, t) := by
  unfold coalesce_left
  rw [if_pos (by simp [h])]

/-- `coalesce_left` leaves the state alone when the left neighbour is
allocated. -/
theorem coalesce_left_alloc (t : MMState) (L0 R : List Block) (B C : Block)
    (hblocks : t.blocks = L0 ++ B :: C :: R)
    (hB : B.alloc = true)
    (hfirst : C.addr ≠ t.heapFirst + 16)
    (hBC : B.addr ≠ C.addr)
    (hfresh : ∀ x ∈ L0, x.addr ≠ C.addr) :
    coalesce_left t C.addr = (C.addr, t) := by
  unfold coalesce_left
  rw [if_neg (by simp [hfirst]), hblocks,
    prevBlk_append L0 R B C C.addr rfl hBC hfresh]
  simp [hB]

/-- `coalesce_left` with a free left neighbour: both blocks leave the free
list, merge in place, and the merged block is appended. -/
theorem coalesce_left_merge (t : MMState) (L0 R : List Block) (B C : Block)
    (hblocks : t.blocks = L0 ++ B :: C :: R)
    (hB : B.alloc = false)
    (hfirst : C.addr ≠ t.heapFirst + 16)
    (hBC : B.addr ≠ C.addr)
    (hfreshC : ∀ x ∈ L0, x.addr ≠ C.addr)
    (hfreshB : ∀ x ∈ L0, x.addr ≠ B.addr)
    (hnd : t.freeList.Nodup)
    (hCin : C.addr ∈ t.freeList) (hBin : B.addr ∈ t.freeList) :
    coalesce_left t C.addr =
      (B.addr, { t with
        blocks := L0 ++ ⟨B.addr, B.size + C.size, false,
          B.data ++ List.replicate 16 0 ++ C.data⟩ :: R,
        freeList := B.addr :: (t.freeList.erase C.addr).erase B.addr }) := by
  have e1 : removeList t.freeList C.addr = (t.freeList.erase C.addr, true) :=
    removeList_eq_erase _ _ hnd hCin
  have e2 : removeList (t.freeList.erase C.addr) B.addr =
      ((t.freeList.erase C.addr).erase B.addr, true) :=
    removeList_eq_erase _ _ (hnd.erase _) ((List.mem_erase_of_ne hBC).mpr hBin)
  unfold coalesce_left
  rw [if_neg (by simp [hfirst]), hblocks,
    prevBlk_append L0 R B C C.addr rfl hBC hfreshC]
  simp only [hB, Bool.false_eq_true, if_false]
  refine congrArg (Prod.mk B.addr) ?_
  refine MMState.ext rfl rfl rfl rfl rfl ?_ ?_ ?_
  · show B.addr :: (removeList (removeList t.freeList C.addr).1 B.addr).1 =
      B.addr :: (t.freeList.erase C.addr).erase B.addr
    simp only [e1, e2]
  · show mergeWithNext B.addr t.blocks =
      L0 ++ ⟨B.addr, B.size + C.size, false,
        B.data ++ List.replicate 16 0 ++ C.data⟩ :: R
    rw [hblocks]
    exact mergeWithNext_append L0 R B C B.addr rfl hfreshB
  · show ((t.assertOk && (removeList t.freeList C.addr).2) &&
        (removeList (removeList t.freeList C.addr).1 B.addr).2) = t.assertOk
    simp only [e1, e2, Bool.and_true]

end MM

namespace MM

/-- The right phase of `coalesce` on the uniform state produced by the left
phase: the freed region is one free block `F1` at the head of the free
list; the block after it is the epilogue, an allocated block (both: stop),
or a free block, merged by a second `coalesce_left`.  Either way the result
is invariant and the freed region stays one free block at the same
address. -/
theorem coalesce_right_inv (s t1 : MMState) (hs : Inv s)
    (La Ra seg : List Block) (F1 : Block) (flr : List Nat)
    (hseg : seg ≠ [])
    (hdec : s.blocks = La ++ (seg ++ Ra))
    (ht1b : t1.blocks = La ++ F1 :: Ra)
    (ht1fl : t1.freeList = F1.addr :: flr)
    (ht1hf : t1.heapFirst = s.heapFirst) (ht1hl : t1.heapLast = s.heapLast)
    (ht1lo : t1.lo = s.lo) (ht1aok : t1.assertOk = true)
    (hF1addr : F1.addr = s.heapFirst + 16 + totalSize La)
    (hF1size : F1.size = totalSize seg)
    (hF1free : F1.alloc = false)
    (hF1len : F1.data.length = F1.size - 16)
    (hLaLast : ∀ x, La.getLast? = some x → x.alloc = true)
    (hflr_nd : flr.Nodup)
    (hflr : ∀ x, x ∈ flr ↔ x ∈ s.freeList ∧ ∀ g ∈ seg, g.addr ≠ x) :
    ∃ t2,
      (if (F1.addr + sizeAt t1 F1.addr != t1.heapLast) &&
          !(allocAt t1 (F1.addr + sizeAt t1 F1.addr))
       then (coalesce_left t1 (F1.addr + sizeAt t1 F1.addr)).2 else t1) = t2 ∧
      Inv t2 ∧ t2.heapFirst = s.heapFirst ∧ t2.lo = s.lo ∧
      ∃ F' Ra', t2.blocks = La ++ F' :: Ra' ∧ F'.addr = F1.addr ∧
        F'.alloc = false ∧
        (Ra' = Ra ∨ ∃ Q, Ra = Q :: Ra' ∧ Q.alloc = false) := by
  -- shared bookkeeping
  have hLa_sub : ∀ x ∈ La, x ∈ s.blocks := by
    intro x hx
    rw [hdec]
    exact List.mem_append_left _ hx
  have hseg_sub : ∀ x ∈ seg, x ∈ s.blocks := by
    intro x hx
    rw [hdec]
    exact List.mem_append_right _ (List.mem_append_left _ hx)
  have hRa_sub : ∀ x ∈ Ra, x ∈ s.blocks := by
    intro x hx
    rw [hdec]
    exact List.mem_append_right _ (List.mem_append_right _ hx)
  have hc0 := hs.contig
  rw [hdec] at hc0
  obtain ⟨hcLa, hcrest⟩ := (contiguousFrom_append _ La (seg ++ Ra)).mp hc0
  obtain ⟨hcseg, hcRa⟩ := (contiguousFrom_append _ seg Ra).mp hcrest
  have hLa_lt : ∀ x ∈ La, x.addr < F1.addr := by
    intro x hx
    have hr := contiguous_mem_range _ La hcLa x hx
    have := hs.sizeMin x (hLa_sub x hx)
    omega
  have hseg_range : ∀ g ∈ seg, F1.addr ≤ g.addr ∧ g.addr < F1.addr + F1.size := by
    intro g hg
    have hr := contiguous_mem_range _ seg hcseg g hg
    have := hs.sizeMin g (hseg_sub g hg)
    omega
  have hF32 : 32 ≤ F1.size := by
    rw [hF1size]
    match seg, hseg with
    | g :: rest, _ =>
      have := hs.sizeMin g (hseg_sub g (List.mem_cons_self _ _))
      simp only [totalSize]
      omega
  have hFnotin : F1.addr ∉ flr := by
    intro hmem
    obtain ⟨_, hfresh⟩ := (hflr _).mp hmem
    match seg, hseg, hcseg with
    | g :: rest, _, hcseg =>
      obtain ⟨hga, _⟩ := hcseg
      exact hfresh g (List.mem_cons_self _ _) (by omega)
  have ht1nd : t1.freeList.Nodup := by
    rw [ht1fl]
    exact List.Nodup.cons hFnotin hflr_nd
  have hlast := hs.last
  rw [hdec, totalSize_append, totalSize_append] at hlast
  have hLafresh : ∀ x ∈ La, x.addr ≠ F1.addr := fun x hx => by
    have := hLa_lt x hx
    omega
  have hsize : sizeAt t1 F1.addr = F1.size := by
    unfold sizeAt findBlk
    rw [ht1b, find?_addr_append La Ra F1 F1.addr rfl hLafresh]
  rw [hsize]
  rcases Ra with _ | ⟨Q, R'⟩
  · -- the freed block reaches the epilogue: nothing to the right
    have hrt : F1.addr + F1.size = t1.heapLast := by
      rw [ht1hl]
      simp only [totalSize] at hlast
      omega
    have hcond : ((F1.addr + F1.size != t1.heapLast) &&
        !(allocAt t1 (F1.addr + F1.size))) = false := by
      rw [hrt]
      simp
    rw [hcond]
    simp only [Bool.false_eq_true, if_false]
    refine ⟨t1, rfl, ?_, ht1hf, ht1lo, F1, [], ht1b, rfl, hF1free, Or.inl rfl⟩
    exact Inv_glue s t1 hs La [] seg F1 flr hseg hdec ht1b ht1fl ht1hf ht1hl
      ht1lo ht1aok hF1addr hF1size hF1free hF1len hLaLast
      (by intro x hx; simp at hx) hflr_nd hflr
  · -- a real block sits to the right
    have hQs : Q ∈ s.blocks := hRa_sub Q (List.mem_cons_self _ _)
    have hQaddr : Q.addr = F1.addr + F1.size := by
      obtain ⟨hqa, _⟩ := hcRa
      omega
    have hQsize := hs.sizeMin Q hQs
    have hQr := contiguous_mem_range _ (Q :: R') hcRa Q (List.mem_cons_self _ _)
    have hne : (F1.addr + F1.size != t1.heapLast) = true := by
      refine bne_iff_ne.mpr ?_
      rw [ht1hl]
      simp only [totalSize] at hlast
      omega
    have hfreshQ : ∀ x ∈ La ++ [F1], x.addr ≠ Q.addr := by
      intro x hx
      rcases List.mem_append.mp hx with hx | hx
      · have := hLa_lt x hx
        omega
      · rw [List.mem_singleton.mp hx]
        omega
    have halloc : allocAt t1 (F1.addr + F1.size) = Q.alloc := by
      unfold allocAt findBlk
      rw [ht1b, show La ++ F1 :: Q :: R' = (La ++ [F1]) ++ Q :: R' by simp]
      rw [find?_addr_append (La ++ [F1]) R' Q (F1.addr + F1.size) hQaddr
        (by intro x hx; rw [← hQaddr]; exact hfreshQ x hx)]
    rw [halloc]
    by_cases hQal : Q.alloc = true
    · -- allocated right neighbour: stop
      have hcond : ((F1.addr + F1.size != t1.heapLast) && !Q.alloc) = false := by
        rw [hne, hQal]
        rfl
      rw [hcond]
      simp only [Bool.false_eq_true, if_false]
      refine ⟨t1, rfl, ?_, ht1hf, ht1lo, F1, Q :: R', ht1b, rfl, hF1free, Or.inl rfl⟩
      refine Inv_glue s t1 hs La (Q :: R') seg F1 flr hseg hdec ht1b ht1fl
        ht1hf ht1hl ht1lo ht1aok hF1addr hF1size hF1free hF1len hLaLast
        ?_ hflr_nd hflr
      intro x hx
      simp only [List.head?_cons, Option.some.injEq] at hx
      rw [← hx]
      exact hQal
    · -- free right neighbour: the second coalesce_left merges it in
      have hQfree : Q.alloc = false := by
        cases h : Q.alloc
        · rfl
        · exact absurd h hQal
      have hcond : ((F1.addr + F1.size != t1.heapLast) && !Q.alloc) = true := by
        rw [hne, hQfree]
        rfl
      rw [hcond]
      simp only [if_true]
      -- resolve the second coalesce_left
      have hQin : Q.addr ∈ t1.freeList := by
        rw [ht1fl]
        refine List.mem_cons_of_mem _ ((hflr _).mpr
          ⟨hs.freeInFl Q hQs hQfree, ?_⟩)
        intro g hg
        have := hseg_range g hg
        omega
      have hBC : F1.addr ≠ Q.addr := by omega
      have hfirst : Q.addr ≠ t1.heapFirst + 16 := by
        rw [ht1hf, hF1addr] at *
        omega
      have hmerge := coalesce_left_merge t1 La R' F1 Q ht1b hF1free hfirst hBC
        (fun x hx => by have := hLa_lt x hx; omega)
        (fun x hx => hLafresh x hx)
        ht1nd hQin (by rw [ht1fl]; exact List.mem_cons_self _ _)
      rw [show F1.addr + F1.size = Q.addr by omega, hmerge]
      -- the resulting free list
      have hflcomp : (t1.freeList.erase Q.addr).erase F1.addr = flr.erase Q.addr := by
        rw [ht1fl]
        have h1 : (F1.addr :: flr).erase Q.addr = F1.addr :: flr.erase Q.addr := by
          rw [List.erase_cons]
          simp [beq_eq_false_iff_ne.mpr hBC]
        rw [h1, List.erase_cons_head]
      set F2 : Block := ⟨F1.addr, F1.size + Q.size, false,
        F1.data ++ List.replicate 16 0 ++ Q.data⟩ with hF2
      refine ⟨_, rfl, ?_, ht1hf, ht1lo, F2, R', by rw [hflcomp], rfl, rfl,
        Or.inr ⟨Q, rfl, hQfree⟩⟩
      -- invariance via the glue lemma over the widened segment
      have hdec2 : s.blocks = La ++ ((seg ++ [Q]) ++ R') := by
        rw [hdec]
        simp
      refine Inv_glue s _ hs La R' (seg ++ [Q]) F2 (flr.erase Q.addr)
        (by simp) hdec2 (by rw [hflcomp]) (by rw [hflcomp])
        ht1hf ht1hl ht1lo ht1aok hF1addr ?_ rfl ?_ hLaLast ?_
        (hflr_nd.erase _) ?_
      · show F1.size + Q.size = totalSize (seg ++ [Q])
        rw [totalSize_append, hF1size]
        simp [totalSize]
      · show (F1.data ++ List.replicate 16 0 ++ Q.data).length = F1.size + Q.size - 16
        have hQlen := hs.dataLen Q hQs
        simp only [List.length_append, List.length_replicate]
        omega
      · -- the head of the rest is allocated: it followed the free Q in s
        intro x hx
        have hch := hs.noAdj
        rw [hdec] at hch
        obtain ⟨_, chRest, _⟩ := List.chain'_append.mp hch
        obtain ⟨_, chQR, _⟩ := List.chain'_append.mp chRest
        obtain ⟨hpair, _⟩ := List.chain'_cons'.mp chQR
        rcases hpair x (by simpa using hx) with h | h
        · rw [hQfree] at h; cases h
        · exact h
      · -- the rebuilt free-list membership
        intro x
        constructor
        · intro hx
          have hx' := (hflr_nd.mem_erase_iff).mp hx
          obtain ⟨hxfl, hfresh⟩ := (hflr _).mp hx'.2
          refine ⟨hxfl, ?_⟩
          intro g hg
          rcases List.mem_append.mp hg with hg | hg
          · exact hfresh g hg
          · rw [List.mem_singleton.mp hg]
            exact fun h => hx'.1 (h ▸ rfl)
        · intro ⟨hxfl, hfresh⟩
          refine (hflr_nd.mem_erase_iff).mpr ⟨?_, (hflr _).mpr ⟨hxfl, ?_⟩⟩
          · intro h
            exact hfresh Q (List.mem_append_right _ (List.mem_singleton_self _)) h.symm
          · intro g hg
            exact hfresh g (List.mem_append_left _ hg)

end MM

namespace MM

/-- Finishing a `free`: once the left phase has reduced the freed region to
a single free block `F1` at the head of the free list, the right phase and
the conclusions of `free` follow uniformly. -/
theorem free_finish (s S2 : MMState) (hs : Inv s) (p : Nat) (P : Block)
    (hPaddr : P.addr + 8 = p)
    (La Ra seg : List Block) (F1 : Block) (flr : List Nat) (t1 : MMState)
    (hseg : seg ≠ [])
    (hdec : s.blocks = La ++ (seg ++ Ra))
    (ht1b : t1.blocks = La ++ F1 :: Ra)
    (ht1fl : t1.freeList = F1.addr :: flr)
    (ht1hf : t1.heapFirst = s.heapFirst) (ht1hl : t1.heapLast = s.heapLast)
    (ht1lo : t1.lo = s.lo) (ht1aok : t1.assertOk = true)
    (hF1addr : F1.addr = s.heapFirst + 16 + totalSize La)
    (hF1size : F1.size = totalSize seg)
    (hF1free : F1.alloc = false)
    (hF1len : F1.data.length = F1.size - 16)
    (hLaLast : ∀ x, La.getLast? = some x → x.alloc = true)
    (hflr_nd : flr.Nodup)
    (hflr : ∀ x, x ∈ flr ↔ x ∈ s.freeList ∧ ∀ g ∈ seg, g.addr ≠ x)
    (hsegOK : ∀ g ∈ seg, g.alloc = false ∨ g.addr + 8 = p)
    (hLaltP : ∀ x ∈ La, x.addr < P.addr)
    (hRagtP : ∀ x ∈ Ra, P.addr < x.addr)
    (hfree_eq : free s p = coalesce S2 P.addr)
    (hphase1 : coalesce_left S2 P.addr = (F1.addr, t1)) :
    Inv (free s p) ∧
    (free s p).heapFirst = s.heapFirst ∧ (free s p).lo = s.lo ∧
    (∀ x ∈ s.blocks, x.alloc = true → x.addr + 8 ≠ p → x ∈ (free s p).blocks) ∧
    (∀ x ∈ (free s p).blocks, x.addr = p - 8 → x.alloc = false) := by
  obtain ⟨t2, heq, hInv, hhf2, hlo2, F', Ra', ht2b, hF'addr, hF'free, hshape⟩ :=
    coalesce_right_inv s t1 hs La Ra seg F1 flr hseg hdec ht1b ht1fl ht1hf ht1hl
      ht1lo ht1aok hF1addr hF1size hF1free hF1len hLaLast hflr_nd hflr
  have hcomb : coalesce S2 P.addr = t2 := by
    unfold coalesce
    rw [hphase1]
    exact heq
  have hfe : free s p = t2 := by rw [hfree_eq, hcomb]
  rw [hfe]
  refine ⟨hInv, hhf2, hlo2, ?_, ?_⟩
  · intro x hx hxal hxp
    rw [ht2b]
    rw [hdec] at hx
    rcases List.mem_append.mp hx with hx | hx
    · exact List.mem_append_left _ hx
    · rcases List.mem_append.mp hx with hx | hx
      · rcases hsegOK x hx with h | h
        · rw [h] at hxal; cases hxal
        · exact absurd h hxp
      · rcases hshape with h | ⟨Q, hQ, hQfree⟩
        · rw [← h] at hx
          exact List.mem_append_right _ (List.mem_cons_of_mem _ hx)
        · rw [hQ] at hx
          rcases List.mem_cons.mp hx with hx | hx
          · rw [hx] at hxal
            rw [hQfree] at hxal
            cases hxal
          · exact List.mem_append_right _ (List.mem_cons_of_mem _ hx)
  · intro x hx hxaddr
    rw [ht2b] at hx
    have hpa : p - 8 = P.addr := by omega
    rw [hpa] at hxaddr
    rcases List.mem_append.mp hx with hx | hx
    · have := hLaltP x hx
      exact absurd hxaddr (by omega)
    · rcases List.mem_cons.mp hx with hx | hx
      · rw [hx]; exact hF'free
      · have hxRa : x ∈ Ra := by
          rcases hshape with h | ⟨Q, hQ, _⟩
          · rw [← h]; exact hx
          · rw [hQ]; exact List.mem_cons_of_mem _ hx
        have := hRagtP x hxRa
        exact absurd hxaddr (by omega)

end MM

namespace MM

/-- The main characterization of `free` on a valid payload pointer: the
invariant is preserved, every other allocated block survives untouched,
and afterwards no allocated block starts at the freed address. -/
theorem free_main (s : MMState) (hs : Inv s) (p : Nat) (hp : validPtr s p) :
    Inv (free s p) ∧
    (free s p).heapFirst = s.heapFirst ∧ (free s p).lo = s.lo ∧
    (∀ x ∈ s.blocks, x.alloc = true → x.addr + 8 ≠ p → x ∈ (free s p).blocks) ∧
    (∀ x ∈ (free s p).blocks, x.addr = p - 8 → x.alloc = false) := by
  obtain ⟨P, hP, hPal, hPaddr⟩ := hp
  have hpa : p - 8 = P.addr := by omega
  have hpne : (p == 0) = false := beq_eq_false_iff_ne.mpr (by omega)
  obtain ⟨L, R, hdec, hlt, hgt, haddr, hle, hge⟩ := hs.decomp P hP
  have hfresh1 : ∀ x ∈ L, x.addr ≠ P.addr := fun x hx => by have := hlt x hx; omega
  have hfresh2 : ∀ x ∈ R, x.addr ≠ P.addr := fun x hx => by have := hgt x hx; omega
  have hanot : P.addr ∉ s.freeList := by
    intro hmem
    obtain ⟨c, hc, hcaddr, hcfree⟩ := hs.flSub _ hmem
    have hcP : c = P := hs.addr_inj c P hc hP hcaddr
    rw [hcP, hPal] at hcfree
    cases hcfree
  have hndS2 : (P.addr :: s.freeList).Nodup := List.Nodup.cons hanot hs.flNodup
  have hsb : setBlockAlloc s.blocks P.addr false =
      L ++ { P with alloc := false } :: R := by
    rw [hdec]
    exact setBlockAlloc_append L R P P.addr false rfl hfresh1 hfresh2
  set S2 : MMState := { s with blocks := setBlockAlloc s.blocks P.addr false,
                               freeList := P.addr :: s.freeList } with hS2
  have hfree_eq : free s p = coalesce S2 P.addr := by
    simp only [free, block_append, hs.hf_ne_zero, Bool.false_eq_true, if_false, hpne]
    rw [hpa, hS2]
  have hS2fl : S2.freeList = P.addr :: s.freeList := by rw [hS2]
  have hS2hf : S2.heapFirst = s.heapFirst := by rw [hS2]
  have hS2hl : S2.heapLast = s.heapLast := by rw [hS2]
  have hS2lo : S2.lo = s.lo := by rw [hS2]
  have hS2aok : S2.assertOk = true := by rw [hS2]; exact hs.aok
  have hS2b : S2.blocks = L ++ { P with alloc := false } :: R := by
    rw [hS2]
    exact hsb
  have hflsingle : ∀ x, x ∈ s.freeList ↔
      x ∈ s.freeList ∧ ∀ g ∈ [P], g.addr ≠ x := by
    intro x
    constructor
    · intro hx
      refine ⟨hx, ?_⟩
      intro g hg
      rw [List.mem_singleton.mp hg]
      intro h
      exact hanot (by rw [h]; exact hx)
    · exact fun h => h.1
  rcases List.eq_nil_or_concat L with hL | ⟨L0, B, hL⟩
  · -- the freed block is the first block of the arena
    subst hL
    have hPfirst : P.addr = s.heapFirst + 16 := by
      simp only [totalSize] at haddr
      omega
    have hphase1 : coalesce_left S2 P.addr =
        (({ P with alloc := false } : Block).addr, S2) :=
      coalesce_left_first S2 P.addr (by rw [hS2hf]; exact hPfirst)
    refine free_finish s S2 hs p P hPaddr [] R [P]
      { P with alloc := false } s.freeList S2 (by simp)
      (by simpa using hdec) (by simpa using hS2b) (by rw [hS2fl])
      hS2hf hS2hl hS2lo hS2aok ?_ ?_ rfl (hs.dataLen P hP)
      (by intro x hx; simp at hx) hs.flNodup hflsingle ?_ (by simp) hgt
      hfree_eq hphase1
    · show P.addr = s.heapFirst + 16 + totalSize []
      simp only [totalSize]
      omega
    · show P.size = totalSize [P]
      simp [totalSize]
    · intro g hg
      rw [List.mem_singleton.mp hg]
      exact Or.inr hPaddr
  · -- the freed block has a left neighbour B
    rw [List.concat_eq_append] at hL
    subst hL
    have hBmem : B ∈ s.blocks := by
      rw [hdec]
      exact List.mem_append_left _ (List.mem_append_right _ (List.mem_singleton_self _))
    have hdec' : s.blocks = L0 ++ (B :: P :: R) := by
      rw [hdec]
      simp
    have hc0 := hs.contig
    rw [hdec'] at hc0
    obtain ⟨hBaddr, hle0, hge0⟩ := contiguous_decomp _ L0 (P :: R) B hc0
    have hL0lt : ∀ x ∈ L0, x.addr < B.addr := by
      intro x hx
      have h1 := hle0 x hx
      have h2 := hs.sizeMin x (by rw [hdec']; exact List.mem_append_left _ hx)
      omega
    have hBsize := hs.sizeMin B hBmem
    have hBP : B.addr < P.addr := hlt B (List.mem_append_right _ (List.mem_singleton_self _))
    have hBPeq : B.addr + B.size = P.addr := by
      rw [haddr, totalSize_append]
      simp only [totalSize]
      omega
    have hfirstne : P.addr ≠ s.heapFirst + 16 := by omega
    have hS2b2 : S2.blocks = L0 ++ B :: { P with alloc := false } :: R := by
      rw [hS2b]
      simp
    rcases Bool.eq_false_or_eq_true B.alloc with hBal | hBfree
    · -- allocated left neighbour: no left merge
      have hphase1 : coalesce_left S2 P.addr =
          (({ P with alloc := false } : Block).addr, S2) :=
        coalesce_left_alloc S2 L0 R B ({ P with alloc := false }) hS2b2 hBal
          (by rw [hS2hf]; exact hfirstne) (by show B.addr ≠ P.addr; omega)
          (fun x hx => by show x.addr ≠ P.addr; have := hL0lt x hx; omega)
      refine free_finish s S2 hs p P hPaddr (L0 ++ [B]) R [P]
        { P with alloc := false } s.freeList S2 (by simp)
        (by rw [hdec]; simp) (by simpa using hS2b) (by rw [hS2fl])
        hS2hf hS2hl hS2lo hS2aok ?_ ?_ rfl (hs.dataLen P hP)
        ?_ hs.flNodup hflsingle ?_ hlt hgt hfree_eq hphase1
      · show P.addr = s.heapFirst + 16 + totalSize (L0 ++ [B])
        exact haddr
      · show P.size = totalSize [P]
        simp [totalSize]
      · intro x hx
        rw [List.getLast?_concat] at hx
        rw [← Option.some.inj hx]
        exact hBal
      · intro g hg
        rw [List.mem_singleton.mp hg]
        exact Or.inr hPaddr
    · -- free left neighbour: left-merge
      have hBfl : B.addr ∈ s.freeList := hs.freeInFl B hBmem hBfree
      have hmerge := coalesce_left_merge S2 L0 R B ({ P with alloc := false })
        hS2b2 hBfree (by rw [hS2hf]; exact hfirstne) (by show B.addr ≠ P.addr; omega)
        (fun x hx => by show x.addr ≠ P.addr; have := hL0lt x hx; omega)
        (fun x hx => by have := hL0lt x hx; omega)
        (by rw [hS2fl]; exact hndS2)
        (by rw [hS2fl]; exact List.mem_cons_self _ _)
        (by rw [hS2fl]; exact List.mem_cons_of_mem _ hBfl)
      have hfl' : (S2.freeList.erase ({ P with alloc := false } : Block).addr).erase B.addr =
          s.freeList.erase B.addr := by
        rw [hS2fl]
        show ((P.addr :: s.freeList).erase P.addr).erase B.addr = _
        rw [List.erase_cons_head]
      rw [hfl'] at hmerge
      have hphase1 : coalesce_left S2 P.addr =
          ((⟨B.addr, B.size + P.size, false,
            B.data ++ List.replicate 16 0 ++ P.data⟩ : Block).addr,
           { S2 with
             blocks := L0 ++ ⟨B.addr, B.size + P.size, false,
               B.data ++ List.replicate 16 0 ++ P.data⟩ :: R,
             freeList := B.addr :: s.freeList.erase B.addr }) := hmerge
      have hchain := hs.noAdj
      rw [hdec'] at hchain
      obtain ⟨_, _, hlink⟩ := List.chain'_append.mp hchain
      refine free_finish s S2 hs p P hPaddr L0 R [B, P]
        ⟨B.addr, B.size + P.size, false, B.data ++ List.replicate 16 0 ++ P.data⟩
        (s.freeList.erase B.addr)
        { S2 with
          blocks := L0 ++ ⟨B.addr, B.size + P.size, false,
            B.data ++ List.replicate 16 0 ++ P.data⟩ :: R,
          freeList := B.addr :: s.freeList.erase B.addr }
        (by simp) (by rw [hdec']; simp) rfl rfl hS2hf hS2hl hS2lo hS2aok
        ?_ ?_ rfl ?_ ?_ (hs.flNodup.erase _) ?_ ?_
        (fun x hx => lt_trans (hL0lt x hx) hBP) hgt hfree_eq hphase1
      · show B.addr = s.heapFirst + 16 + totalSize L0
        exact hBaddr
      · show B.size + P.size = totalSize [B, P]
        simp [totalSize]
      · show (B.data ++ List.replicate 16 0 ++ P.data).length = B.size + P.size - 16
        have h1 := hs.dataLen B hBmem
        have h2 := hs.dataLen P hP
        have h3 := hs.sizeMin P hP
        simp only [List.length_append, List.length_replicate]
        omega
      · intro x hx
        have := hlink x (by simpa using hx) B (by simp)
        rcases this with h | h
        · exact h
        · rw [hBfree] at h
          cases h
      · intro x
        constructor
        · intro hx
          have hx' := (hs.flNodup.mem_erase_iff).mp hx
          refine ⟨hx'.2, ?_⟩
          intro g hg
          rcases List.mem_cons.mp hg with hg | hg
          · rw [hg]
            exact fun h => hx'.1 h.symm
          · rw [List.mem_singleton.mp hg]
            intro h
            exact hanot (by rw [h]; exact hx'.2)
        · intro ⟨hxfl, hfresh⟩
          refine (hs.flNodup.mem_erase_iff).mpr ⟨?_, hxfl⟩
          intro h
          exact hfresh B (List.mem_cons_self _ _) h.symm
      · intro g hg
        rcases List.mem_cons.mp hg with hg | hg
        · rw [hg]; exact Or.inl hBfree
        · rw [List.mem_singleton.mp hg]; exact Or.inr hPaddr

end MM

namespace MM

/-- Contiguity only reads addresses and sizes, so it survives any pointwise
rewrite preserving them. -/
theorem contiguousFrom_map (f : Block → Block) (a : Nat) (l : List Block)
    (hpres : ∀ b ∈ l, (f b).addr = b.addr ∧ (f b).size = b.size)
    (h : contiguousFrom a l) : contiguousFrom a (l.map f) := by
  induction l generalizing a with
  | nil => trivial
  | cons b t ih =>
    obtain ⟨h1, h2⟩ := h
    obtain ⟨ha, hsz⟩ := hpres b (List.mem_cons_self _ _)
    refine ⟨by rw [ha]; exact h1, ?_⟩
    rw [hsz]
    exact ih (a + b.size) (fun x hx => hpres x (List.mem_cons_of_mem _ hx)) h2

/-- Total size is stable under size-preserving pointwise rewrites. -/
theorem totalSize_map (f : Block → Block) (l : List Block)
    (hpres : ∀ b ∈ l, (f b).size = b.size) : totalSize (l.map f) = totalSize l := by
  induction l with
  | nil => rfl
  | cons b t ih =>
    simp only [List.map_cons, totalSize]
    rw [hpres b (List.mem_cons_self _ _), ih fun x hx => hpres x (List.mem_cons_of_mem _ hx)]

/-- The no-adjacent-free chain is stable under flag-preserving pointwise
rewrites. -/
theorem chain_map (f : Block → Block) (l : List Block)
    (hpres : ∀ b ∈ l, (f b).alloc = b.alloc)
    (h : l.Chain' fun b c => b.alloc = true ∨ c.alloc = true) :
    (l.map f).Chain' fun b c => b.alloc = true ∨ c.alloc = true := by
  induction l with
  | nil => simp
  | cons b t ih =>
    obtain ⟨hhd, htl⟩ := List.chain'_cons'.mp h
    rw [List.map_cons]
    refine List.chain'_cons'.mpr ⟨?_, ih (fun x hx => hpres x (List.mem_cons_of_mem _ hx)) htl⟩
    intro y hy
    rw [List.head?_map] at hy
    simp only [Option.mem_def, Option.map_eq_some'] at hy
    obtain ⟨z, hz, hzy⟩ := hy
    rcases hhd z hz with h | h
    · rw [hpres b (List.mem_cons_self _ _)]
      exact Or.inl h
    · rw [← hzy, hpres z (List.mem_cons_of_mem _ (by exact List.mem_of_mem_head? hz))]
      exact Or.inr h

/-- A pointwise rewrite of the blocks that keeps address, size, allocated
flag and payload length of every block preserves the invariant. -/
theorem Inv_map (s : MMState) (hs : Inv s) (f : Block → Block)
    (haddr : ∀ b ∈ s.blocks, (f b).addr = b.addr)
    (hsize : ∀ b ∈ s.blocks, (f b).size = b.size)
    (halloc : ∀ b ∈ s.blocks, (f b).alloc = b.alloc)
    (hlen : ∀ b ∈ s.blocks, (f b).data.length = b.data.length) :
    Inv { s with blocks := s.blocks.map f } := by
  constructor
  case hf => exact hs.hf
  case contig =>
    exact contiguousFrom_map f _ s.blocks (fun b hb => ⟨haddr b hb, hsize b hb⟩) hs.contig
  case last =>
    show s.heapLast = _ + 16 + totalSize (s.blocks.map f)
    rw [totalSize_map f s.blocks hsize]
    exact hs.last
  case sizeMin =>
    intro x hx
    obtain ⟨b, hb, hbx⟩ := List.mem_map.mp hx
    rw [← hbx, hsize b hb]
    exact hs.sizeMin b hb
  case sizeAlign =>
    intro x hx
    obtain ⟨b, hb, hbx⟩ := List.mem_map.mp hx
    rw [← hbx, hsize b hb]
    exact hs.sizeAlign b hb
  case dataLen =>
    intro x hx
    obtain ⟨b, hb, hbx⟩ := List.mem_map.mp hx
    rw [← hbx, hlen b hb, hsize b hb]
    exact hs.dataLen b hb
  case flNodup => exact hs.flNodup
  case flSub =>
    intro a ha
    obtain ⟨c, hc, hcaddr, hcfree⟩ := hs.flSub a ha
    refine ⟨f c, List.mem_map_of_mem f hc, ?_, ?_⟩
    · rw [haddr c hc]; exact hcaddr
    · rw [halloc c hc]; exact hcfree
  case freeInFl =>
    intro x hx hxfree
    obtain ⟨b, hb, hbx⟩ := List.mem_map.mp hx
    rw [← hbx, haddr b hb]
    refine hs.freeInFl b hb ?_
    rw [← halloc b hb, hbx]
    exact hxfree
  case noAdj => exact chain_map f s.blocks halloc hs.noAdj
  case aok => exact hs.aok

end MM


namespace MM

/-- `memcpy` into a block: invariant preserved (when the copy does not read
past the source payload), every other block untouched, and the destination
block's payload rewritten. -/
theorem memcpy_facts (s : MMState) (hs : Inv s) (dst src n : Nat)
    (hn : n ≤ (dataAt s (src - 8)).length) :
    Inv (memcpyBlk s dst src n) ∧
    (memcpyBlk s dst src n).freeList = s.freeList ∧
    (memcpyBlk s dst src n).heapFirst = s.heapFirst ∧
    (memcpyBlk s dst src n).lo = s.lo ∧
    (∀ b ∈ s.blocks, b.addr ≠ dst - 8 → b ∈ (memcpyBlk s dst src n).blocks) ∧
    (∀ b ∈ s.blocks, b.addr = dst - 8 →
      { b with data := ((dataAt s (src - 8)).take n ++ b.data.drop n).take b.data.length }
        ∈ (memcpyBlk s dst src n).blocks) := by
  set f : Block → Block := fun b => if b.addr == dst - 8 then
      { b with data := ((dataAt s (src - 8)).take n ++ b.data.drop n).take b.data.length }
    else b with hf
  have hrepr : memcpyBlk s dst src n = { s with blocks := s.blocks.map f } := rfl
  have hpt : ∀ b, (f b).addr = b.addr ∧ (f b).size = b.size ∧ (f b).alloc = b.alloc := by
    intro b
    by_cases h : b.addr = dst - 8 <;> simp [hf, h]
  have hlen : ∀ b ∈ s.blocks, (f b).data.length = b.data.length := by
    intro b hb
    by_cases h : (b.addr == dst - 8) = true
    · simp only [hf]
      rw [if_pos h]
      simp only [List.length_take, List.length_append, List.length_drop]
      omega
    · simp only [hf]
      rw [if_neg (by simp [h])]
  refine ⟨?_, by rw [hrepr], by rw [hrepr], by rw [hrepr], ?_, ?_⟩
  · rw [hrepr]
    exact Inv_map s hs f (fun b _ => (hpt b).1) (fun b _ => (hpt b).2.1)
      (fun b _ => (hpt b).2.2) hlen
  · intro b hb hbne
    have hfb : f b = b := by
      simp only [hf]
      rw [if_neg (by simp [hbne])]
    rw [hrepr]
    show b ∈ s.blocks.map f
    rw [← hfb]
    exact List.mem_map_of_mem f hb
  · intro b hb hbeq
    have hfb : f b = { b with
        data := ((dataAt s (src - 8)).take n ++ b.data.drop n).take b.data.length } := by
      simp only [hf]
      rw [if_pos (by simp [hbeq])]
    rw [hrepr]
    show _ ∈ s.blocks.map f
    rw [← hfb]
    exact List.mem_map_of_mem f hb

/-- `memset(…, 0, n)` into a block: invariant preserved, every other block
untouched, destination payload zeroed up to `n` (clipped to the payload). -/
theorem memset0_facts (s : MMState) (hs : Inv s) (dst n : Nat) :
    Inv (memset0 s dst n) ∧
    (memset0 s dst n).freeList = s.freeList ∧
    (memset0 s dst n).heapFirst = s.heapFirst ∧
    (memset0 s dst n).lo = s.lo ∧
    (∀ b ∈ s.blocks, b.addr ≠ dst - 8 → b ∈ (memset0 s dst n).blocks) ∧
    (∀ b ∈ s.blocks, b.addr = dst - 8 →
      { b with data := List.replicate (min n b.data.length) 0 ++ b.data.drop n }
        ∈ (memset0 s dst n).blocks) := by
  set f : Block → Block := fun b => if b.addr == dst - 8 then
      { b with data := List.replicate (min n b.data.length) 0 ++ b.data.drop n }
    else b with hf
  have hrepr : memset0 s dst n = { s with blocks := s.blocks.map f } := rfl
  have hpt : ∀ b, (f b).addr = b.addr ∧ (f b).size = b.size ∧ (f b).alloc = b.alloc := by
    intro b
    by_cases h : b.addr = dst - 8 <;> simp [hf, h]
  have hlen : ∀ b ∈ s.blocks, (f b).data.length = b.data.length := by
    intro b hb
    by_cases h : (b.addr == dst - 8) = true
    · simp only [hf]
      rw [if_pos h]
      simp only [List.length_append, List.length_replicate, List.length_drop]
      omega
    · simp only [hf]
      rw [if_neg (by simp [h])]
  refine ⟨?_, by rw [hrepr], by rw [hrepr], by rw [hrepr], ?_, ?_⟩
  · rw [hrepr]
    exact Inv_map s hs f (fun b _ => (hpt b).1) (fun b _ => (hpt b).2.1)
      (fun b _ => (hpt b).2.2) hlen
  · intro b hb hbne
    have hfb : f b = b := by
      simp only [hf]
      rw [if_neg (by simp [hbne])]
    rw [hrepr]
    show b ∈ s.blocks.map f
    rw [← hfb]
    exact List.mem_map_of_mem f hb
  · intro b hb hbeq
    have hfb : f b = { b with
        data := List.replicate (min n b.data.length) 0 ++ b.data.drop n } := by
      simp only [hf]
      rw [if_pos (by simp [hbeq])]
    rw [hrepr]
    show _ ∈ s.blocks.map f
    rw [← hfb]
    exact List.mem_map_of_mem f hb

end MM

namespace MM

/-- `malloc` returns null exactly on a zero-size request: both the
free-list path and the arena-growth path of the source return a pointer. -/
theorem malloc_none_iff (s : MMState) (sz : Nat) :
    (malloc s sz).1 = none ↔ sz = 0 := by
  by_cases h : sz = 0
  · subst h
    simp [malloc]
  · have hne : (sz == 0) = false := beq_eq_false_iff_ne.mpr h
    simp only [malloc, hne, Bool.false_eq_true, if_false]
    split <;> simp [h]

/-- `free(NULL)` is a no-op on an initialized heap. -/
theorem free_null (s : MMState) (hs : Inv s) : free s 0 = s := by
  simp [free, hs.hf_ne_zero]

/-- The main characterization of `realloc` on a live pointer, for requests
clear of the `size_t` wrap: it returns a fresh non-null pointer whose first
`min(size, old payload size)` bytes are the old payload bytes, frees the
old block, and preserves the invariant. -/
theorem realloc_main (s : MMState) (hs : Inv s) (p sz : Nat)
    (hval : validPtr s p) (h1 : 1 ≤ sz) (h2 : sz + 64 ≤ pow64) :
    ∃ q s', realloc s p sz = (some q, s') ∧ Inv s' ∧ q ≠ 0 ∧
      (dataAt s' (q - 8)).take (min sz (sizeAt s (p - 8) - 16)) =
        (dataAt s (p - 8)).take (min sz (sizeAt s (p - 8) - 16)) ∧
      (∀ b ∈ s'.blocks, b.addr = p - 8 → b.alloc = false) ∧
      s'.heapFirst = s.heapFirst ∧ s'.lo = s.lo := by
  obtain ⟨P, hP, hPal, hPaddr⟩ := hval
  obtain ⟨ha32, hal, hage, hasafe⟩ := adjSize_spec sz h1 h2
  have hszne : (sz == 0) = false := beq_eq_false_iff_ne.mpr (by omega)
  have hpane : (p == 0) = false := beq_eq_false_iff_ne.mpr (by omega)
  obtain ⟨q, s1, hmal, hInv1, hhf1, hlo1, nb, hnb, hq, hnbal, hnbsz, hnblen, hframe⟩ :=
    malloc_main s hs sz h1 h2
  obtain ⟨hPin1, hPne⟩ := hframe P hP hPal
  have hpa : p - 8 = P.addr := by omega
  have hsz1 : sizeAt s1 (p - 8) = P.size := by
    rw [hpa]
    exact hInv1.sizeAt_eq P hPin1
  have hdata1 : dataAt s1 (p - 8) = P.data := by
    rw [hpa]
    exact hInv1.dataAt_eq P hPin1
  have hPlen := hs.dataLen P hP
  have hPsz := hs.sizeMin P hP
  have hkeq : (if sz < sizeAt s1 (p - 8) - 16 then sz else sizeAt s1 (p - 8) - 16) =
      min sz (P.size - 16) := by
    rw [hsz1]
    split <;> omega
  have hre1 : realloc s p sz = (some q,
      free (memcpyBlk s1 q p (min sz (P.size - 16))) p) := by
    simp only [realloc, hszne, hpane, Bool.false_eq_true, if_false, hmal, hkeq]
  have hklen : min sz (P.size - 16) ≤ (dataAt s1 (p - 8)).length := by
    rw [hdata1, hPlen]
    omega
  obtain ⟨hInv2, hfl2, hhf2, hlo2, hfr2, hupd2⟩ :=
    memcpy_facts s1 hInv1 q p (min sz (P.size - 16)) hklen
  have hq8 : q - 8 = nb.addr := by omega
  have hnb2 := hupd2 nb hnb hq8.symm
  rw [hdata1] at hnb2
  have hPin2 : P ∈ (memcpyBlk s1 q p (min sz (P.size - 16))).blocks :=
    hfr2 P hPin1 (by omega)
  have hval2 : validPtr (memcpyBlk s1 q p (min sz (P.size - 16))) p :=
    ⟨P, hPin2, hPal, hPaddr⟩
  obtain ⟨hInv3, hhf3, hlo3, hfr3, hmark3⟩ :=
    free_main (memcpyBlk s1 q p (min sz (P.size - 16))) hInv2 p hval2
  refine ⟨q, free (memcpyBlk s1 q p (min sz (P.size - 16))) p, hre1, hInv3,
    by omega, ?_, hmark3, by rw [hhf3, hhf2, hhf1], by rw [hlo3, hlo2, hlo1]⟩
  have hszs : sizeAt s (p - 8) = P.size := by
    rw [hpa]
    exact hs.sizeAt_eq P hP
  have hdatas : dataAt s (p - 8) = P.data := by
    rw [hpa]
    exact hs.dataAt_eq P hP
  rw [hszs, hdatas]
  -- the copied block survives the free of the old block
  have hnb2al : ({nb with
      data := (P.data.take (min sz (P.size - 16)) ++
        nb.data.drop (min sz (P.size - 16))).take nb.data.length} : Block).alloc
      = true := hnbal
  have hnb2in := hfr3 _ hnb2 hnb2al (by
    show nb.addr + 8 ≠ p
    omega)
  have hread : dataAt (free (memcpyBlk s1 q p (min sz (P.size - 16))) p) (q - 8) =
      (P.data.take (min sz (P.size - 16)) ++
        nb.data.drop (min sz (P.size - 16))).take nb.data.length := by
    have h := hInv3.dataAt_eq _ hnb2in
    rw [hq8]
    exact h
  rw [hread]
  have hka : min sz (P.size - 16) ≤ nb.data.length := by
    rw [hnblen]
    omega
  rw [List.take_take, min_eq_left hka]
  have hkp : min sz (P.size - 16) ≤ (P.data.take (min sz (P.size - 16))).length := by
    simp only [List.length_take]
    omega
  rw [List.take_append_of_le_length hkp, List.take_take, min_self]

/-- The main characterization of `calloc` for a non-zero wrapped byte count
clear of the `size_t` wrap: it returns a non-null pointer whose first
`nmemb * size mod 2 ^ 64` payload bytes are zero, and preserves the
invariant. -/
theorem calloc_main (s : MMState) (hs : Inv s) (n m : Nat)
    (h1 : 1 ≤ n * m % pow64) (h2 : n * m % pow64 + 64 ≤ pow64) :
    ∃ q s', calloc s n m = (some q, s') ∧ Inv s' ∧ q ≠ 0 ∧
      (dataAt s' (q - 8)).take (n * m % pow64) =
        List.replicate (n * m % pow64) 0 ∧
      s'.heapFirst = s.heapFirst ∧ s'.lo = s.lo := by
  obtain ⟨ha32, hal, hage, hasafe⟩ := adjSize_spec (n * m % pow64) h1 h2
  obtain ⟨q, s1, hmal, hInv1, hhf1, hlo1, nb, hnb, hq, hnbal, hnbsz, hnblen, hframe⟩ :=
    malloc_main s hs (n * m % pow64) h1 h2
  have hcal : calloc s n m = (some q, memset0 s1 q (n * m % pow64)) := by
    simp only [calloc, hmal]
  obtain ⟨hInv2, hfl2, hhf2, hlo2, hfr2, hupd2⟩ :=
    memset0_facts s1 hInv1 q (n * m % pow64)
  have hq8 : q - 8 = nb.addr := by omega
  have hnb2 := hupd2 nb hnb hq8.symm
  refine ⟨q, memset0 s1 q (n * m % pow64), hcal, hInv2, by omega, ?_,
    by rw [hhf2, hhf1], by rw [hlo2, hlo1]⟩
  have hread : dataAt (memset0 s1 q (n * m % pow64)) (q - 8) =
      List.replicate (min (n * m % pow64) nb.data.length) 0 ++
        nb.data.drop (n * m % pow64) := by
    have h := hInv2.dataAt_eq _ hnb2
    rw [hq8]
    exact h
  rw [hread]
  have hble : n * m % pow64 ≤ nb.data.length := by
    rw [hnblen]
    omega
  rw [min_eq_left hble]
  have h1' : n * m % pow64 ≤ (List.replicate (n * m % pow64) (0 : Nat)).length := by
    simp
  rw [List.take_append_of_le_length h1', List.take_replicate, min_self]

end MM

namespace MM

/-- A fresh `mm_init` on an arena that can serve the 40-byte pad
establishes the structural invariant (empty block run, empty free list). -/
theorem base_inv (lo cap : Nat) (hcap : 40 ≤ cap) :
    Inv (mm_init (initialState lo cap)).2 := by
  have hc : 0 + 40 ≤ cap := by omega
  have h : (mm_init (initialState lo cap)).2 =
      ⟨lo, cap, 40, lo + 8, lo + 24, [], [], true⟩ := by
    simp only [mm_init, initialState, mem_sbrk, hc, if_true]
    refine MMState.ext rfl rfl ?_ rfl ?_ rfl rfl rfl
    · show 0 + 40 = 40
      omega
    · show lo + (0 + 40) - 16 = lo + 24
      omega
  rw [h]
  refine ⟨rfl, trivial, ?_, ?_, ?_, ?_, List.nodup_nil, ?_, ?_, List.chain'_nil, rfl⟩
  · show lo + 24 = lo + 8 + 16 + totalSize []
    simp only [totalSize]
  · intro b hb
    exact absurd hb (List.not_mem_nil _)
  · intro b hb
    exact absurd hb (List.not_mem_nil _)
  · intro b hb
    exact absurd hb (List.not_mem_nil _)
  · intro a ha
    exact absurd ha (List.not_mem_nil _)
  · intro b hb _
    exact absurd hb (List.not_mem_nil _)

/-- Every reachable state satisfies the structural invariant of section 3:
each public entry point preserves it. -/
theorem reachable_inv (s : MMState) (h : Reachable s) : Inv s := by
  induction h with
  | start lo cap hcap => exact base_inv lo cap hcap
  | step_malloc s sz h hsz ih =>
    by_cases h0 : sz = 0
    · subst h0
      rw [malloc_zero s ih]
      exact ih
    · obtain ⟨q, s', heq, hInv, _⟩ := malloc_main s ih sz (by omega) hsz
      rw [heq]
      exact hInv
  | step_free s p h hp ih =>
    rcases hp with h0 | hval
    · subst h0
      rw [free_null s ih]
      exact ih
    · exact (free_main s ih p hval).1
  | step_realloc s p sz h hp hsz ih =>
    by_cases h0 : sz = 0
    · subst h0
      have hz : realloc s p 0 = (none, free s p) := by
        simp [realloc]
      rw [hz]
      rcases hp with hpz | hval
      · subst hpz
        rw [free_null s ih]
        exact ih
      · exact (free_main s ih p hval).1
    · rcases hp with hpz | hval
      · subst hpz
        have hszne : (sz == 0) = false := beq_eq_false_iff_ne.mpr h0
        have hz : realloc s 0 sz = malloc s sz := by
          simp [realloc, hszne]
        rw [hz]
        obtain ⟨q, s', heq, hInv, _⟩ := malloc_main s ih sz (by omega) hsz
        rw [heq]
        exact hInv
      · obtain ⟨q, s', heq, hInv, _⟩ := realloc_main s ih p sz hval (by omega) hsz
        rw [heq]
        exact hInv
  | step_calloc s n m h hsz ih =>
    by_cases h0 : n * m % pow64 = 0
    · have hz : calloc s n m = (none, s) := by
        have hm := malloc_zero s ih
        simp only [calloc, h0, hm]
      rw [hz]
      exact ih
    · obtain ⟨q, s', heq, hInv, _⟩ := calloc_main s ih n m (by omega) hsz
      rw [heq]
      exact hInv

end MM

namespace MM

/-- Every pointer `malloc` returns is the payload pointer (`+ 8`) of either
a free-list node or the old epilogue, hence 16-byte aligned whenever the
arena's low bound is: both address families are `heapFirst + 16` plus a
multiple of 16. -/
theorem malloc_ret_align (s : MMState) (hs : Inv s) (hlo : s.lo % 16 = 0)
    (sz q : Nat) (h : (malloc s sz).1 = some q) : q % 16 = 0 := by
  by_cases h0 : sz = 0
  · subst h0
    rw [malloc_zero s hs] at h
    exact absurd h (by simp)
  have hne : (sz == 0) = false := beq_eq_false_iff_ne.mpr h0
  simp only [malloc, hs.hf_ne_zero, Bool.false_eq_true, if_false, hne] at h
  have hhf : s.heapFirst % 16 = 8 := by
    have := hs.hf
    omega
  rcases hff : find_fit s (adjSize sz) with _ | ⟨a, s1⟩
  · rw [hff] at h
    have hq : q = (create_space s (adjSize sz)).1 + 8 := by
      have := Option.some.inj h
      omega
    have hc1 : (create_space s (adjSize sz)).1 = (mem_sbrk s (adjSize sz)).2.heapLast := rfl
    have hl := (mem_sbrk_proj s (adjSize sz)).2.1
    have hla := hs.last_align
    omega
  · rw [hff] at h
    have hq : q = a + 8 := by
      have := Option.some.inj h
      omega
    have hmem : a ∈ s.freeList :=
      find_fitAux_ret_mem s (adjSize sz) s.freeList a s1 hff
    obtain ⟨b, hb, hba, _⟩ := hs.flSub a hmem
    have := hs.addr_align b hb
    omega

/-- `realloc` answers exactly what its inner `malloc` answers once the
zero-size and null-pointer shortcuts are out of the way. -/
theorem realloc_fst (s : MMState) (p sz : Nat) (hsz : sz ≠ 0) (hp : p ≠ 0) :
    (realloc s p sz).1 = (malloc s sz).1 := by
  have hszne : (sz == 0) = false := beq_eq_false_iff_ne.mpr hsz
  have hpne : (p == 0) = false := beq_eq_false_iff_ne.mpr hp
  simp only [realloc, hszne, hpne, Bool.false_eq_true, if_false]
  rcases hm : malloc s sz with ⟨q, s1⟩
  rcases q with _ | q <;> rfl

/-- `calloc` answers exactly what its inner `malloc` of the wrapped product
answers. -/
theorem calloc_fst (s : MMState) (n m : Nat) :
    (calloc s n m).1 = (malloc s (n * m % pow64)).1 := by
  simp only [calloc]
  rcases hm : malloc s (n * m % pow64) with ⟨q, s1⟩
  rcases q with _ | q <;> rfl

end MM

namespace MM

/-- C3: after every public operation (`malloc`, `free`, `realloc`,
`calloc`), no two adjacent blocks in the arena are both free — in every
reachable state the block run satisfies the no-adjacent-free-blocks chain
condition, so every freed block's surviving neighbours inside the arena are
allocated. -/
theorem c3_no_adjacent_free_blocks (s : MMState) (h : Reachable s) :
    s.blocks.Chain' fun b c => b.alloc = true ∨ c.alloc = true :=
  (reachable_inv s h).noAdj

theorem c3_no_adjacent_free_blocks_witness :
    checkState.blocks.Chain' fun b c => b.alloc = true ∨ c.alloc = true :=
  c3_no_adjacent_free_blocks checkState
    (Reachable.step_free _ 48
      (Reachable.step_malloc _ 16 (Reachable.start 16 1000 (by decide)) (by decide))
      (Or.inr ⟨⟨40, 32, true, List.replicate 16 0⟩, by decide, by decide, by decide⟩))

/-- C4: on every reachable free-list state and every member `a` of the
free list, `block_remove` produces exactly the state of the direct O(1)
doubly-linked unlink of `a` — same free list (membership, order, links and
head) and nothing else changed. -/
theorem c4_block_remove_refines_unlink (s : MMState) (h : Reachable s)
    (a : Nat) (ha : a ∈ s.freeList) :
    block_remove s a = { s with freeList := direct_unlink s.freeList a } := by
  have hs := reachable_inv s h
  have hr := removeList_eq_erase s.freeList a hs.flNodup ha
  simp only [block_remove, hr, direct_unlink, Bool.and_true]

theorem c4_block_remove_refines_unlink_witness :
    block_remove checkState 40 =
      { checkState with freeList := direct_unlink checkState.freeList 40 } :=
  c4_block_remove_refines_unlink checkState
    (Reachable.step_free _ 48
      (Reachable.step_malloc _ 16 (Reachable.start 16 1000 (by decide)) (by decide))
      (Or.inr ⟨⟨40, 32, true, List.replicate 16 0⟩, by decide, by decide, by decide⟩))
    40 (by decide)

end MM

namespace MM

/-- C5: `find_fit` scans the free list from the head; at the first node
whose size `c` clears the split threshold `32 + adj` it splits (allocated
left half of size `adj` at the node, free right half of size `c - adj`
appended to the free list) and returns the left half; at the first node
with `adj ≤ c < 32 + adj` it removes the node from the list and marks it
allocated, returning it whole; when no node fits it returns null.  Stated
over reachable states for the adjusted sizes `malloc` produces (multiples
of 16, at least 32, clear of the `size_t` wrap). -/
theorem c5_find_fit_first_fit (s : MMState) (h : Reachable s) (adj : Nat)
    (h32 : 32 ≤ adj) (hal : adj % 16 = 0) (hadj : 32 + adj < pow64) :
    ((∀ x ∈ s.freeList, sizeAt s x < adj) ∧ find_fit s adj = none) ∨
    (∃ l1 a l2 t, s.freeList = l1 ++ a :: l2 ∧
      (∀ x ∈ l1, sizeAt s x < adj) ∧ adj ≤ sizeAt s a ∧
      find_fit s adj = some (a, t) ∧
      ((32 + adj ≤ sizeAt s a ∧
        sizeAt t a = adj ∧ allocAt t a = true ∧
        sizeAt t (a + adj) = sizeAt s a - adj ∧ allocAt t (a + adj) = false ∧
        t.freeList = (a + adj) :: s.freeList.erase a) ∨
       (sizeAt s a < 32 + adj ∧
        sizeAt t a = sizeAt s a ∧ allocAt t a = true ∧
        t.freeList = s.freeList.erase a))) := by
  have hs := reachable_inv s h
  rcases first_fit_split s adj s.freeList with hmiss | ⟨l1, a, l2, hdecfl, hmiss, hfit⟩
  · left
    refine ⟨hmiss, ?_⟩
    unfold find_fit
    have hsk := find_fitAux_skip s adj hadj s.freeList [] hmiss
    rw [List.append_nil] at hsk
    rw [hsk]
    rfl
  · right
    have hafl : a ∈ s.freeList := by
      rw [hdecfl]
      exact List.mem_append_right _ (List.mem_cons_self _ _)
    obtain ⟨b, hb, hba, hbfree⟩ := hs.flSub a hafl
    subst hba
    have hsa : sizeAt s b.addr = b.size := hs.sizeAt_eq b hb
    by_cases hsplit : 32 + adj ≤ b.size
    · -- the first fitting node clears the split threshold
      obtain ⟨L1, L2, hdec, hblocks, hfl, hhf, hhl, hlo, hInvT⟩ :=
        split_inv s hs b hb hbfree adj h32 hal (by omega)
      have hff : find_fit s adj = some (split s b.addr adj) := by
        unfold find_fit
        rw [hdecfl, find_fitAux_skip s adj hadj l1 (b.addr :: l2) hmiss]
        exact find_fitAux_hit_split s adj b.addr l2 hadj (by omega)
      have hsp : split s b.addr adj = (b.addr, (split s b.addr adj).2) := by
        rw [split_state s hs b hb hbfree adj]
      have hmemL : (⟨b.addr, adj, true, b.data.take (adj - 16)⟩ : Block)
          ∈ (split s b.addr adj).2.blocks := by
        rw [hblocks]
        exact List.mem_append_right _ (List.mem_cons_self _ _)
      have hmemR : (⟨b.addr + adj, b.size - adj, false, b.data.drop adj⟩ : Block)
          ∈ (split s b.addr adj).2.blocks := by
        rw [hblocks]
        exact List.mem_append_right _
          (List.mem_cons_of_mem _ (List.mem_cons_self _ _))
      refine ⟨l1, b.addr, l2, (split s b.addr adj).2, hdecfl, hmiss, hfit, ?_,
        Or.inl ⟨by omega, ?_, ?_, ?_, ?_, hfl⟩⟩
      · rw [hff]
        exact congrArg some hsp
      · exact hInvT.sizeAt_eq _ hmemL
      · exact hInvT.allocAt_eq _ hmemL
      · rw [hsa]
        exact hInvT.sizeAt_eq _ hmemR
      · exact hInvT.allocAt_eq _ hmemR
    · -- the first fitting node is taken whole
      have hskip : find_fitAux s adj s.freeList = find_fitAux s adj (b.addr :: l2) := by
        rw [hdecfl]
        exact find_fitAux_skip s adj hadj l1 (b.addr :: l2) hmiss
      have hff : find_fit s adj = some (b.addr, { s with
          blocks := setBlockAlloc s.blocks b.addr true,
          freeList := s.freeList.erase b.addr }) := by
        unfold find_fit
        rw [hskip,
          find_fitAux_hit_exact s adj b.addr l2 hadj (by omega) (by omega),
          exact_state s hs b hb hbfree]
      obtain ⟨L1, L2, hdec, hblocks, hInvT⟩ := exact_inv s hs b hb hbfree
      have hmem : ({ b with alloc := true } : Block) ∈ setBlockAlloc s.blocks b.addr true := by
        rw [hblocks]
        exact List.mem_append_right _ (List.mem_cons_self _ _)
      refine ⟨l1, b.addr, l2, _, hdecfl, hmiss, hfit, hff,
        Or.inr ⟨by omega, ?_, ?_, rfl⟩⟩
      · rw [hsa]
        exact hInvT.sizeAt_eq ⟨b.addr, b.size, true, b.data⟩ hmem
      · exact hInvT.allocAt_eq ⟨b.addr, b.size, true, b.data⟩ hmem

theorem c5_find_fit_first_fit_witness :
    ((∀ x ∈ checkState.freeList, sizeAt checkState x < 32) ∧
      find_fit checkState 32 = none) ∨
    (∃ l1 a l2 t, checkState.freeList = l1 ++ a :: l2 ∧
      (∀ x ∈ l1, sizeAt checkState x < 32) ∧ 32 ≤ sizeAt checkState a ∧
      find_fit checkState 32 = some (a, t) ∧
      ((32 + 32 ≤ sizeAt checkState a ∧
        sizeAt t a = 32 ∧ allocAt t a = true ∧
        sizeAt t (a + 32) = sizeAt checkState a - 32 ∧
        allocAt t (a + 32) = false ∧
        t.freeList = (a + 32) :: checkState.freeList.erase a) ∨
       (sizeAt checkState a < 32 + 32 ∧
        sizeAt t a = sizeAt checkState a ∧ allocAt t a = true ∧
        t.freeList = checkState.freeList.erase a))) :=
  c5_find_fit_first_fit checkState
    (Reachable.step_free _ 48
      (Reachable.step_malloc _ 16 (Reachable.start 16 1000 (by decide)) (by decide))
      (Or.inr ⟨⟨40, 32, true, List.replicate 16 0⟩, by decide, by decide, by decide⟩))
    32 (by decide) (by decide) (by decide)

end MM

namespace MM

/-- C6 (amended: request sizes bounded away from the `size_t` wrap,
`sz + 64 ≤ 2 ^ 64`): for every live pointer `p` and every such `sz > 0`,
`realloc(p, sz)` returns a non-null pointer whose first
`min(sz, old payload size)` payload bytes equal the corresponding bytes of
`p`'s payload before the call, and `p`'s block is freed afterwards; the
inner `malloc` never fails. -/
theorem c6_realloc_preserves_payload (s : MMState) (h : Reachable s)
    (p sz : Nat) (hval : validPtr s p) (h1 : 1 ≤ sz) (h2 : sz + 64 ≤ pow64) :
    ∃ q s', realloc s p sz = (some q, s') ∧ q ≠ 0 ∧
      (dataAt s' (q - 8)).take (min sz (sizeAt s (p - 8) - 16)) =
        (dataAt s (p - 8)).take (min sz (sizeAt s (p - 8) - 16)) ∧
      ∀ b ∈ s'.blocks, b.addr = p - 8 → b.alloc = false := by
  obtain ⟨q, s', heq, _, hq0, hdata, hfree, _, _⟩ :=
    realloc_main s (reachable_inv s h) p sz hval h1 h2
  exact ⟨q, s', heq, hq0, hdata, hfree⟩

theorem c6_realloc_preserves_payload_witness :
    ∃ q s', realloc c6P 48 16 = (some q, s') ∧ q ≠ 0 ∧
      (dataAt s' (q - 8)).take (min 16 (sizeAt c6P (48 - 8) - 16)) =
        (dataAt c6P (48 - 8)).take (min 16 (sizeAt c6P (48 - 8) - 16)) ∧
      ∀ b ∈ s'.blocks, b.addr = 48 - 8 → b.alloc = false :=
  c6_realloc_preserves_payload c6P
    (Reachable.step_malloc _ 16 (Reachable.start 16 1000 (by decide)) (by decide))
    48 16 ⟨⟨40, 32, true, List.replicate 16 0⟩, by decide, by decide, by decide⟩
    (by decide) (by decide)

/-- C7: every non-null pointer returned by `malloc`, `realloc`, or `calloc`
on a reachable state is a multiple of 16, provided the arena's low bound is
16-byte aligned (which places the first block header 8 bytes above a
16-byte boundary): every returned pointer is a block address plus 8, and
all block addresses are 16-byte-aligned offsets from `heapFirst + 16`. -/
theorem c7_returned_pointers_aligned (s : MMState) (h : Reachable s)
    (hlo : s.lo % 16 = 0) (q : Nat) :
    (∀ sz, (malloc s sz).1 = some q → q % 16 = 0) ∧
    (∀ p sz, (realloc s p sz).1 = some q → q % 16 = 0) ∧
    (∀ n m, (calloc s n m).1 = some q → q % 16 = 0) := by
  have hs := reachable_inv s h
  refine ⟨fun sz hm => malloc_ret_align s hs hlo sz q hm, ?_, ?_⟩
  · intro p sz hm
    by_cases hsz : sz = 0
    · subst hsz
      have hz : realloc s p 0 = (none, free s p) := by simp [realloc]
      rw [hz] at hm
      exact absurd hm (by simp)
    by_cases hp : p = 0
    · subst hp
      have hszne : (sz == 0) = false := beq_eq_false_iff_ne.mpr hsz
      have hz : (realloc s 0 sz).1 = (malloc s sz).1 := by
        simp [realloc, hszne]
      rw [hz] at hm
      exact malloc_ret_align s hs hlo sz q hm
    · rw [realloc_fst s p sz hsz hp] at hm
      exact malloc_ret_align s hs hlo sz q hm
  · intro n m hm
    rw [calloc_fst s n m] at hm
    exact malloc_ret_align s hs hlo (n * m % pow64) q hm

theorem c7_returned_pointers_aligned_witness :
    (malloc startState 48).1 = some 48 ∧ 48 % 16 = 0 :=
  ⟨by decide,
    (c7_returned_pointers_aligned startState (Reachable.start 16 1000 (by decide))
      (by decide) 48).1 48 (by decide)⟩

/-- C9 (amended: the zero-fill guarantee holds for wrapped byte counts
clear of the `size_t` wrap, `bytes + 64 ≤ 2 ^ 64`): `calloc(nmemb, size)`
returns null exactly when `nmemb * size mod 2 ^ 64 = 0` — in particular on
`nmemb = 0`, `size = 0`, or an overflowing pair with wrapped product zero —
and for a non-zero wrapped count `bytes` in the safe range it returns a
non-null pointer whose first `bytes` payload bytes are zero. -/
theorem c9_calloc_null_iff_zero_fill (s : MMState) (h : Reachable s) (n m : Nat) :
    ((calloc s n m).1 = none ↔ n * m % pow64 = 0) ∧
    (1 ≤ n * m % pow64 → n * m % pow64 + 64 ≤ pow64 →
      ∃ q s', calloc s n m = (some q, s') ∧ q ≠ 0 ∧
        (dataAt s' (q - 8)).take (n * m % pow64) =
          List.replicate (n * m % pow64) 0) := by
  constructor
  · rw [calloc_fst s n m]
    exact malloc_none_iff s (n * m % pow64)
  · intro h1 h2
    obtain ⟨q, s', heq, _, hq0, hdata, _, _⟩ :=
      calloc_main s (reachable_inv s h) n m h1 h2
    exact ⟨q, s', heq, hq0, hdata⟩

theorem c9_calloc_null_iff_zero_fill_witness :
    ∃ q s', calloc startState 4 4 = (some q, s') ∧ q ≠ 0 ∧
      (dataAt s' (q - 8)).take (4 * 4 % pow64) =
        List.replicate (4 * 4 % pow64) 0 :=
  (c9_calloc_null_iff_zero_fill startState (Reachable.start 16 1000 (by decide))
    4 4).2 (by decide) (by decide)

/-- C10: on every reachable state, `block_remove` is only invoked on
free-list members; when the head's `next` pointer is null the free list is
exactly that singleton head, so the block being removed is the head itself
and the assert inside `block_remove` holds — no reachable call flips the
assert flag. -/
theorem c10_block_remove_assert_never_fails (s : MMState) (h : Reachable s) :
    s.assertOk = true ∧
    (∀ a ∈ s.freeList, ∀ h0, s.freeList.head? = some h0 →
      listNext h0 s.freeList = none → a = h0) ∧
    (∀ a ∈ s.freeList, (block_remove s a).assertOk = true) := by
  have hs := reachable_inv s h
  refine ⟨hs.aok, ?_, ?_⟩
  · intro a ha h0 hh hn
    exact listNext_none_singleton s.freeList h0 hh hn a ha
  · intro a ha
    have hr := removeList_eq_erase s.freeList a hs.flNodup ha
    simp only [block_remove, hr, Bool.and_true]
    exact hs.aok

theorem c10_block_remove_assert_never_fails_witness :
    (block_remove checkState 40).assertOk = true :=
  (c10_block_remove_assert_never_fails checkState
    (Reachable.step_free _ 48
      (Reachable.step_malloc _ 16 (Reachable.start 16 1000 (by decide)) (by decide))
      (Or.inr ⟨⟨40, 32, true, List.replicate 16 0⟩, by decide, by decide, by decide⟩))).2.2
    40 (by decide)

end MM

namespace MMB

/-! ## Byte-accurate embedding

The block-list model above cannot represent a write that crosses a block
boundary — exactly what `realloc`'s `memcpy` does once the wrapped adjusted
size has made `malloc` hand out an undersized block.  This section embeds
the same source a second time, at the level of individual heap bytes: the
heap is a byte array indexed by absolute address, every header, footer and
free-list pointer is an 8-byte little-endian word in it, and each function
below translates the corresponding source function line by line
(`get_size` masks the word with `~0xF`, `set_footer` copies the header
word to `block + size - 8`, `block_remove` asserts on the head's null
`next`, `coalesce_left` jumps through the left footer word, and so on).
`mem_sbrk` is modelled from the spec as in the block model.  All pointer
and `size_t` arithmetic wraps modulo `2 ^ 64`. -/

/-- 64-bit wrapping subtraction (`size_t` differences and `decr_pointer`). -/
def sub64 (a b : Nat) : Nat := (a + MM.pow64 - b % MM.pow64) % MM.pow64

/-- Load the 8-byte little-endian word at byte address `a`. -/
def loadW (m : List Nat) (a : Nat) : Nat :=
  m.getD a 0 + 256 * (m.getD (a + 1) 0 + 256 * (m.getD (a + 2) 0 +
    256 * (m.getD (a + 3) 0 + 256 * (m.getD (a + 4) 0 + 256 * (m.getD (a + 5) 0 +
      256 * (m.getD (a + 6) 0 + 256 * m.getD (a + 7) 0))))))

/-- Store the 8-byte little-endian word `v` at byte address `a`. -/
def storeW (m : List Nat) (a v : Nat) : List Nat :=
  (((((((m.set a (v % 256)).set (a + 1) (v / 256 % 256)).set
    (a + 2) (v / 256 ^ 2 % 256)).set (a + 3) (v / 256 ^ 3 % 256)).set
    (a + 4) (v / 256 ^ 4 % 256)).set (a + 5) (v / 256 ^ 5 % 256)).set
    (a + 6) (v / 256 ^ 6 % 256)).set (a + 7) (v / 256 ^ 7 % 256)

/-- The `n` bytes at address `a` — what a C caller reads there. -/
def readBytes (m : List Nat) (a n : Nat) : List Nat :=
  (List.range n).map fun i => m.getD (a + i) 0

/-- Translates `get_size_from_val`: `val & ~0xF` in 64 bits. -/
def get_size_from_val (v : Nat) : Nat := Nat.land v (MM.pow64 - 16)

/-- The allocator state of the byte model: heap bytes, break and capacity
of the spec-modelled arena, the source's three globals (`0` is `NULL`),
and the assert flag of `block_remove` as in the block model. -/
structure CState where
  mem : List Nat
  brk : Nat
  cap : Nat
  lo : Nat
  heapFirst : Nat
  heapLast : Nat
  freeHead : Nat
  aok : Bool

/-- Translates `get_size`: mask of the header word at `block`. -/
def get_size (m : List Nat) (block : Nat) : Nat := get_size_from_val (loadW m block)

/-- Translates `is_allocated`: bit 0 of the header word. -/
def is_allocated (m : List Nat) (block : Nat) : Bool :=
  Nat.land (loadW m block) 1 == 1

/-- Translates `set_header`: the header word becomes `size | alloc`. -/
def set_header (m : List Nat) (block size : Nat) (al : Bool) : List Nat :=
  storeW m block (Nat.lor size (if al then 1 else 0))

/-- Translates `set_footer`: copy the header word to `block + size - 8`,
with the size re-read through the mask. -/
def set_footer (m : List Nat) (block : Nat) : List Nat :=
  storeW m (sub64 (block + get_size m block) 8) (loadW m block)

/-- Translates `get_next`: the first pointer word of a freed payload. -/
def get_next (m : List Nat) (block : Nat) : Nat := loadW m (block + 8)

/-- Translates `set_next`. -/
def set_next (m : List Nat) (block nxt : Nat) : List Nat := storeW m (block + 8) nxt

/-- Translates `get_prev`: the second pointer word of a freed payload. -/
def get_prev (m : List Nat) (block : Nat) : Nat := loadW m (block + 16)

/-- Translates `set_prev`. -/
def set_prev (m : List Nat) (block prv : Nat) : List Nat := storeW m (block + 16) prv

/-- Modelled from the spec: the arena provider `mem_sbrk` (not part of
src/) serves requests from a fixed zero-initialized pool of `cap` bytes at
`lo`, returning the previous break, or null once the break would pass the
capacity. -/
def mem_sbrk (s : CState) (n : Nat) : Option Nat × CState :=
  if s.brk + n ≤ s.cap then (some (s.lo + s.brk), { s with brk := s.brk + n })
  else (none, s)

/-- Translates `mm_init` (it writes no heap bytes: only the 40-byte pad
and the three globals). -/
def mm_init (s : CState) : Int × CState :=
  let s0 := { s with freeHead := 0 }
  match mem_sbrk s0 40 with
  | (none, s1) => (-1, s1)
  | (some _, s1) =>
    (0, { s1 with heapFirst := s1.lo + 8, heapLast := s1.lo + s1.brk - 16 })

/-- Translates `block_append`. -/
def block_append (s : CState) (block : Nat) : CState :=
  let m1 := set_next s.mem block s.freeHead
  let m2 := if s.freeHead != 0 then set_prev m1 s.freeHead block else m1
  let m3 := set_prev m2 block 0
  { s with mem := m3, freeHead := block }

/-- Translates `block_remove`, recording its assert in `aok`. -/
def block_remove (s : CState) (block : Nat) : CState :=
  if get_next s.mem s.freeHead == 0 then
    { s with freeHead := 0, aok := s.aok && (block == s.freeHead) }
  else
    let nxt := get_next s.mem block
    let prv := get_prev s.mem block
    if block == s.freeHead then
      { s with mem := set_prev s.mem nxt 0, freeHead := nxt }
    else
      let m1 := set_next s.mem prv nxt
      let m2 := if nxt != 0 then set_prev m1 nxt prv else m1
      { s with mem := m2 }

/-- Translates `create_space` (the result of `mem_sbrk` is discarded, as
in the source). -/
def create_space (s : CState) (size : Nat) : Nat × CState :=
  let s1 := (mem_sbrk s size).2
  let block := s1.heapLast
  let s2 := { s1 with heapLast := (s1.heapLast + size) % MM.pow64 }
  let m1 := set_header s2.mem block size true
  let m2 := set_footer m1 block
  (block, { s2 with mem := m2 })

/-- Translates `split`. -/
def split (s : CState) (block size : Nat) : Nat × CState :=
  let s1 := block_remove s block
  let old_size := get_size s1.mem block
  let m1 := set_header s1.mem block size true
  let m2 := set_footer m1 block
  let sf := (block + size) % MM.pow64
  let m3 := set_header m2 sf (sub64 old_size size) false
  let m4 := set_footer m3 sf
  (block, block_append { s1 with mem := m4 } sf)

/-- Translates the scan of `find_fit`; the fuel bounds the number of
followed `next` pointers (ample on every terminating run, and on every
concrete run below). -/
def find_fitAux (s : CState) (size : Nat) : Nat → Nat → Option (Nat × CState)
  | _, 0 => none
  | curr, fuel + 1 =>
    if curr == 0 then none
    else
      let curr_size := get_size s.mem curr
      if (2 * 16 + size) % MM.pow64 ≤ curr_size then some (split s curr size)
      else if size ≤ curr_size then
        let s1 := block_remove s curr
        let m1 := set_header s1.mem curr (get_size s1.mem curr) true
        let m2 := set_footer m1 curr
        some (curr, { s1 with mem := m2 })
      else find_fitAux s size (get_next s.mem curr) fuel

/-- Translates `find_fit`. -/
def find_fit (s : CState) (size : Nat) : Option (Nat × CState) :=
  find_fitAux s size s.freeHead (s.mem.length + 1)

/-- Translates `malloc`. -/
def malloc (s : CState) (size : Nat) : Option Nat × CState :=
  let s := if s.heapFirst == 0 then (mm_init s).2 else s
  if size == 0 then (none, s)
  else
    let adj := (16 + MM.round_up size 16) % MM.pow64
    match find_fit s adj with
    | some (block, s1) => (some (block + 8), s1)
    | none =>
      let r := create_space s adj
      (some (r.1 + 8), r.2)

/-- Translates `coalesce_left`: stop at the prologue boundary, jump
through the left footer word, merge when the left header says free. -/
def coalesce_left (s : CState) (block : Nat) : Nat × CState :=
  let lfp := sub64 block 8
  if lfp == s.heapFirst + 8 then (block, s)
  else
    let jump := get_size_from_val (loadW s.mem lfp)
    let left_block := sub64 block jump
    if is_allocated s.mem left_block then (block, s)
    else
      let s1 := block_remove s block
      let s2 := block_remove s1 left_block
      let new_size := (get_size s2.mem block + get_size s2.mem left_block) % MM.pow64
      let m1 := set_header s2.mem left_block new_size false
      let m2 := set_footer m1 left_block
      (left_block, block_append { s2 with mem := m2 } left_block)

/-- Translates `coalesce`. -/
def coalesce (s : CState) (block : Nat) : CState :=
  let r := coalesce_left s block
  let b := r.1
  let s1 := r.2
  let rt := (b + get_size s1.mem b) % MM.pow64
  if rt != s1.heapLast && !(is_allocated s1.mem rt) then (coalesce_left s1 rt).2
  else s1

/-- Translates `free`. -/
def free (s : CState) (p : Nat) : CState :=
  let s := if s.heapFirst == 0 then (mm_init s).2 else s
  if p == 0 then s
  else
    let block := sub64 p 8
    let m1 := set_header s.mem block (get_size s.mem block) false
    let m2 := set_footer m1 block
    coalesce (block_append { s with mem := m2 } block) block

/-- Translates the byte loop of `memcpy(dst, src, n)` (the regions of the
call below are disjoint, so the forward order gives the source's result).
-/
def memcpyB : List Nat → Nat → Nat → Nat → List Nat
  | m, _, _, 0 => m
  | m, dst, src, n + 1 => memcpyB (m.set dst (m.getD src 0)) (dst + 1) (src + 1) n

/-- Translates `realloc`: the copy length `min(size, old payload size)` is
read from the old block's header before the copy, as in the source. -/
def realloc (s : CState) (p size : Nat) : Option Nat × CState :=
  if size == 0 then (none, free s p)
  else if p == 0 then malloc s size
  else
    match malloc s size with
    | (none, s1) => (none, s1)
    | (some q, s1) =>
      let block := sub64 p 8
      let old0 := sub64 (get_size s1.mem block) 16
      let n := if size < old0 then size else old0
      (some q, free { s1 with mem := memcpyB s1.mem q p n } p)

/-- Modelled from the spec: a client store of the 8-byte word `v` into
memory it owns — the spec's S4 scenario fills a malloc-returned payload
with `memset(p, 0xAA, 16)` the same way before calling `realloc`. -/
def clientStore (s : CState) (a v : Nat) : CState :=
  { s with mem := storeW s.mem a v }

/-- A zeroed arena of `cap` bytes at `lo`. -/
def initialCState (lo cap : Nat) : CState :=
  ⟨List.replicate (lo + cap) 0, 0, cap, lo, 0, 0, 0, true⟩

/-- The pre-realloc state of the C6 counterexample: `init()`;
`a = malloc(16)` (block `[40, 72)`, `a = 48`); `b = malloc(32)` (block
`[72, 120)`, `b = 80`, payload `[80, 112)`); `free(a)`; then the client
fills `b`'s payload: word 170 at 80, word 33 at 96, word 49 at 104. -/
def c6CexPre : CState :=
  clientStore (clientStore (clientStore
    (free (malloc (malloc (mm_init (initialCState 16 120)).2 16).2 32).2 48)
    80 170) 96 33) 104 49

end MMB

namespace MMB

set_option maxRecDepth 40000 in
/-- The claim-C6 counterexample, byte-accurate.  Take `p = 80`, previously
returned by `malloc(32)` (its block `[72, 120)` has size 48, payload size
32, filled by the client), and `s = 2 ^ 64 - 1 > 0`.  The adjusted size
`16 + round_up(s, 16)` wraps to 16, so the inner `malloc` serves the
request from the 32-byte free block at 40 (exact fit) and returns
`q = 48`; `memcpy(q, p, min(s, 32)) = memcpy(48, 80, 32)` copies `p`'s
payload over `[48, 80)` — the last word landing on `p`'s own block header
`[72, 80)` — and the subsequent `free(p)` rewrites that header through the
masking `get_size` (`49 & ~0xF = 48`, freed): byte 24 of `q`'s promised
first 32 bytes changes from 49 to 48.  So `realloc` returns non-null (the
claim's first disjunct fails) and `q`'s first `min(s, 32)` bytes do not
equal `p`'s old payload (the second disjunct fails), even though `p`'s
block is freed and every access of the run stays inside the sbrk'd arena
`[16, 136)` — the behaviour is fully defined. -/
theorem c6_wrap_counterexample :
    get_size c6CexPre.mem 72 = 48 ∧
    is_allocated c6CexPre.mem 72 = true ∧
    min (MM.pow64 - 1) (sub64 (get_size c6CexPre.mem 72) 16) = 32 ∧
    (realloc c6CexPre 80 (MM.pow64 - 1)).1 = some 48 ∧
    (readBytes (realloc c6CexPre 80 (MM.pow64 - 1)).2.mem 48 32).take 24 =
      (readBytes c6CexPre.mem 80 32).take 24 ∧
    (readBytes c6CexPre.mem 80 32).getD 24 0 = 49 ∧
    (readBytes (realloc c6CexPre 80 (MM.pow64 - 1)).2.mem 48 32).getD 24 0 = 48 ∧
    ¬(readBytes (realloc c6CexPre 80 (MM.pow64 - 1)).2.mem 48 32 =
        readBytes c6CexPre.mem 80 32) ∧
    is_allocated (realloc c6CexPre 80 (MM.pow64 - 1)).2.mem 72 = false := by
  refine ⟨by decide, by decide, by decide, by decide, by decide, by decide,
    by decide, by decide, by decide⟩

end MMB
